import Mathlib

/-!
Verification of the annotation interchange engine of the `autolabel`
repository (labelme conversation-format support).

Text is modelled as `List Char`; Python floats are modelled as exact
rationals (`ℚ`), so decimal parsing and 3-decimal formatting are exact
operations on `ℚ`.  Each definition below is a shallow embedding of the
correspondingly named Python function from `labelme/conversation_format.py`
or `labelme/vlm/utils.py`.
-/

namespace AutoLabel

/-- Python whitespace characters recognised by `str.strip()`:
space, tab, newline, carriage return, vertical tab, form feed. -/
def isSpaceCh (c : Char) : Bool :=
  c.toNat = 32 || c.toNat = 9 || c.toNat = 10 || c.toNat = 13 ||
  c.toNat = 11 || c.toNat = 12

/-- ASCII decimal digit test. -/
def isDigitCh (c : Char) : Bool :=
  48 ≤ c.toNat && c.toNat ≤ 57

/-- Model of Python `str.strip()`: remove leading and trailing whitespace. -/
def pstrip (l : List Char) : List Char :=
  ((l.dropWhile isSpaceCh).reverse.dropWhile isSpaceCh).reverse

/-- Numeric value of a decimal digit character. -/
def digitVal (c : Char) : ℕ := c.toNat - 48

/-- Value of a big-endian string of decimal digit characters. -/
def digitsToNat (l : List Char) : ℕ :=
  l.foldl (fun a c => 10 * a + digitVal c) 0

/-- The decimal digit character for a value below ten. -/
def dchar (d : ℕ) : Char :=
  ['0', '1', '2', '3', '4', '5', '6', '7', '8', '9'].getD d '0'

/-- Big-endian decimal rendering of a natural number. -/
def natStr (n : ℕ) : List Char :=
  if n = 0 then ['0'] else ((Nat.digits 10 n).map dchar).reverse

/-- Exactly three decimal digits for a value below 1000 (zero padded). -/
def pad3 (k : ℕ) : List Char :=
  [dchar (k / 100), dchar (k / 10 % 10), dchar (k % 10)]

/-- Split an optional leading sign character off a numeric literal,
returning whether the value is negated and the remaining characters. -/
def splitSign (l : List Char) : Bool × List Char :=
  match l with
  | [] => (false, [])
  | c :: r => if c = '-' then (true, r) else if c = '+' then (false, r) else (false, c :: r)

/-- Parse the mantissa of a float literal: an integer part and an optional
fractional part, at least one of which must be nonempty.  Returns the
rational value together with the unconsumed characters. -/
def parseMantissa (l : List Char) : Option (ℚ × List Char) :=
  match l.dropWhile isDigitCh with
  | c :: r2 =>
    if c = '.' then
      if (l.takeWhile isDigitCh).isEmpty && (r2.takeWhile isDigitCh).isEmpty then none
      else some ((digitsToNat (l.takeWhile isDigitCh) : ℚ) +
        (digitsToNat (r2.takeWhile isDigitCh) : ℚ) / 10 ^ (r2.takeWhile isDigitCh).length,
        r2.dropWhile isDigitCh)
    else if (l.takeWhile isDigitCh).isEmpty then none
    else some ((digitsToNat (l.takeWhile isDigitCh) : ℚ), c :: r2)
  | [] =>
    if (l.takeWhile isDigitCh).isEmpty then none
    else some ((digitsToNat (l.takeWhile isDigitCh) : ℚ), [])

/-- Parse the digits of an exponent (with optional sign) as an integer;
the digit run must be nonempty and consume the whole input. -/
def parseExpDigits (l : List Char) : Option ℤ :=
  let sg := splitSign l
  if sg.2.isEmpty || !(sg.2.all isDigitCh) then none
  else some ((if sg.1 then -1 else 1) * (digitsToNat sg.2 : ℤ))

/-- Model of Python `float(x)` on the inputs this code base produces and
consumes: optional surrounding whitespace, optional sign, decimal mantissa,
optional exponent.  (`inf`, `nan` and digit underscores are not modelled;
no claim depends on them.)  Returns the exact rational value. -/
def parseFloat (s : List Char) : Option ℚ :=
  match parseMantissa (splitSign (pstrip s)).2 with
  | none => none
  | some (m, rest) =>
    match rest with
    | [] => some (if (splitSign (pstrip s)).1 then -m else m)
    | c :: r2 =>
      if c = 'e' || c = 'E' then
        (parseExpDigits r2).map fun e =>
          (if (splitSign (pstrip s)).1 then -m else m) * (10 : ℚ) ^ e
      else none

/-- Rounding to three decimal places, the value produced by Python's
`f-string` format `:.3f` (ties are negligible for the stated tolerance). -/
def rnd3 (q : ℚ) : ℚ := (round (q * 1000) : ℚ) / 1000

/-- Model of Python `f"{q:.3f}"`: the sign, the integer part, a point and
exactly three fractional digits. -/
def fmt3 (q : ℚ) : List Char :=
  let n : ℤ := round (q * 1000)
  let a : ℕ := n.natAbs
  (if n < 0 then ['-'] else []) ++ natStr (a / 1000) ++ '.' :: pad3 (a % 1000)

/- ### Basic lemmas about digits and formatting -/

theorem dchar_isDigit (d : ℕ) : isDigitCh (dchar d) = true := by
  rcases Nat.lt_or_ge d 10 with h | h
  · interval_cases d <;> decide
  · rw [dchar, List.getD_eq_default _ _ (by simpa using h)]; decide

theorem digitVal_dchar {d : ℕ} (h : d < 10) : digitVal (dchar d) = d := by
  interval_cases d <;> decide

theorem isDigitCh_ne (c c' : Char) (h : isDigitCh c = true) (h' : isDigitCh c' = false) :
    c ≠ c' := by
  intro he; rw [he] at h; rw [h] at h'; cases h'

theorem digitsToNat_append_digit (l : List Char) (c : Char) :
    digitsToNat (l ++ [c]) = 10 * digitsToNat l + digitVal c := by
  simp [digitsToNat, List.foldl_append]

theorem digitsToNat_rev_digits (ds : List ℕ) (h : ∀ d ∈ ds, d < 10) :
    digitsToNat ((ds.map dchar).reverse) = Nat.ofDigits 10 ds := by
  induction ds with
  | nil => simp [digitsToNat]
  | cons d ds ih =>
    have hd : d < 10 := h d (by simp)
    simp only [List.map_cons, List.reverse_cons, digitsToNat_append_digit,
      Nat.ofDigits_cons]
    rw [ih (fun x hx => h x (by simp [hx])), digitVal_dchar hd]
    ring

theorem natStr_digits (n : ℕ) : ∀ c ∈ natStr n, isDigitCh c = true := by
  intro c hc
  by_cases h : n = 0
  · subst h; simp [natStr] at hc; subst hc; decide
  · simp [natStr, h] at hc
    obtain ⟨d, hd, rfl⟩ := hc
    exact dchar_isDigit d

theorem natStr_ne_nil (n : ℕ) : natStr n ≠ [] := by
  by_cases h : n = 0
  · subst h; simp [natStr]
  · simp only [natStr, if_neg h]
    have hd : Nat.digits 10 n ≠ [] := Nat.digits_ne_nil_iff_ne_zero.mpr h
    intro he
    apply hd
    simpa using he

theorem digitsToNat_natStr (n : ℕ) : digitsToNat (natStr n) = n := by
  by_cases h : n = 0
  · subst h; decide
  · simp only [natStr, if_neg h]
    rw [digitsToNat_rev_digits _ (fun d hd => Nat.digits_lt_base (by norm_num) hd)]
    exact Nat.ofDigits_digits 10 n

theorem pad3_digits (k : ℕ) : ∀ c ∈ pad3 k, isDigitCh c = true := by
  intro c hc
  simp [pad3] at hc
  rcases hc with rfl | rfl | rfl <;> exact dchar_isDigit _

theorem digitsToNat_pad3 {k : ℕ} (h : k < 1000) : digitsToNat (pad3 k) = k := by
  have h1 : k / 100 < 10 := by omega
  have h2 : k / 10 % 10 < 10 := Nat.mod_lt _ (by norm_num)
  have h3 : k % 10 < 10 := Nat.mod_lt _ (by norm_num)
  simp only [pad3, digitsToNat, List.foldl_cons, List.foldl_nil]
  rw [show digitVal (dchar (k / 100)) = k / 100 from digitVal_dchar h1,
    show digitVal (dchar (k / 10 % 10)) = k / 10 % 10 from digitVal_dchar h2,
    show digitVal (dchar (k % 10)) = k % 10 from digitVal_dchar h3]
  omega

/- ### takeWhile / dropWhile and strip helpers -/

theorem takeWhile_middle {p : Char → Bool} {a : List Char} (b : Char) (r : List Char)
    (ha : ∀ c ∈ a, p c = true) (hb : p b = false) :
    (a ++ b :: r).takeWhile p = a := by
  induction a with
  | nil => simp [List.takeWhile_cons, hb]
  | cons x xs ih =>
    have hx : p x = true := ha x (by simp)
    simp [List.takeWhile_cons, hx, ih (fun c hc => ha c (by simp [hc]))]

theorem dropWhile_middle {p : Char → Bool} {a : List Char} (b : Char) (r : List Char)
    (ha : ∀ c ∈ a, p c = true) (hb : p b = false) :
    (a ++ b :: r).dropWhile p = b :: r := by
  induction a with
  | nil => simp [List.dropWhile_cons, hb]
  | cons x xs ih =>
    have hx : p x = true := ha x (by simp)
    simp [List.dropWhile_cons, hx, ih (fun c hc => ha c (by simp [hc]))]

theorem takeWhile_all {p : Char → Bool} {a : List Char} (ha : ∀ c ∈ a, p c = true) :
    a.takeWhile p = a := by
  induction a with
  | nil => rfl
  | cons x xs ih =>
    simp [List.takeWhile_cons, ha x (by simp), ih (fun c hc => ha c (by simp [hc]))]

theorem dropWhile_all {p : Char → Bool} {a : List Char} (ha : ∀ c ∈ a, p c = true) :
    a.dropWhile p = [] := by
  induction a with
  | nil => rfl
  | cons x xs ih =>
    simp [List.dropWhile_cons, ha x (by simp), ih (fun c hc => ha c (by simp [hc]))]

theorem dropWhile_no {p : Char → Bool} {l : List Char} (h : ∀ c ∈ l, p c = false) :
    l.dropWhile p = l := by
  cases l with
  | nil => rfl
  | cons x xs => simp [List.dropWhile_cons, h x (by simp)]

theorem pstrip_eq_self {l : List Char} (h : ∀ c ∈ l, isSpaceCh c = false) : pstrip l = l := by
  unfold pstrip
  rw [dropWhile_no h, dropWhile_no (fun c hc => h c (List.mem_reverse.mp hc)),
    List.reverse_reverse]

/- ### Character classification facts -/

theorem digit_excl {c : Char} (h : isDigitCh c = true) :
    isSpaceCh c = false ∧ c ≠ ',' ∧ c ≠ '<' ∧ c ≠ ']' ∧ c ≠ '[' ∧ c ≠ '-' ∧ c ≠ '+' := by
  have hn : 48 ≤ c.toNat ∧ c.toNat ≤ 57 := by simpa [isDigitCh] using h
  refine ⟨?_, ?_, ?_, ?_, ?_, ?_, ?_⟩
  · simp only [isSpaceCh, Bool.or_eq_false_iff, decide_eq_false_iff_not]
    omega
  all_goals intro he; subst he; exact absurd hn (by decide)

theorem splitSign_no_sign {c : Char} (r : List Char) (h1 : c ≠ '-') (h2 : c ≠ '+') :
    splitSign (c :: r) = (false, c :: r) := by
  simp [splitSign, h1, h2]

/- ### Parsing back what the 3-decimal formatter produced -/

theorem fmt3_chars (q : ℚ) : ∀ c ∈ fmt3 q, c = '-' ∨ c = '.' ∨ isDigitCh c = true := by
  intro c hc
  unfold fmt3 at hc
  by_cases hneg : round (q * 1000) < 0 <;> simp [hneg] at hc
  · rcases hc with rfl | h | rfl | h
    · left; rfl
    · exact Or.inr (Or.inr (natStr_digits _ c h))
    · right; left; rfl
    · exact Or.inr (Or.inr (pad3_digits _ c h))
  · rcases hc with h | rfl | h
    · exact Or.inr (Or.inr (natStr_digits _ c h))
    · right; left; rfl
    · exact Or.inr (Or.inr (pad3_digits _ c h))

theorem fmt3_no_space (q : ℚ) : ∀ c ∈ fmt3 q, isSpaceCh c = false := by
  intro c hc
  rcases fmt3_chars q c hc with rfl | rfl | h
  · decide
  · decide
  · exact (digit_excl h).1

theorem fmt3_ne_comma (q : ℚ) : ∀ c ∈ fmt3 q, c ≠ ',' := by
  intro c hc
  rcases fmt3_chars q c hc with rfl | rfl | h
  · decide
  · decide
  · exact (digit_excl h).2.1

theorem fmt3_ne_lt (q : ℚ) : ∀ c ∈ fmt3 q, c ≠ '<' := by
  intro c hc
  rcases fmt3_chars q c hc with rfl | rfl | h
  · decide
  · decide
  · exact (digit_excl h).2.2.1

theorem fmt3_ne_rbr (q : ℚ) : ∀ c ∈ fmt3 q, c ≠ ']' := by
  intro c hc
  rcases fmt3_chars q c hc with rfl | rfl | h
  · decide
  · decide
  · exact (digit_excl h).2.2.2.1

theorem parseMantissa_core (u v : ℕ) (hv : v < 1000) :
    parseMantissa (natStr u ++ '.' :: pad3 v) = some ((u : ℚ) + (v : ℚ) / 1000, []) := by
  have hI := natStr_digits u
  have hdot : isDigitCh '.' = false := by decide
  have htake := takeWhile_middle '.' (pad3 v) hI hdot
  have hdrop := dropWhile_middle '.' (pad3 v) hI hdot
  have hfp := takeWhile_all (pad3_digits v)
  have hfd := dropWhile_all (pad3_digits v)
  have hne : (natStr u).isEmpty = false := by
    simp [List.isEmpty_iff, natStr_ne_nil u]
  simp only [parseMantissa, htake, hdrop, hfp, hfd, hne]
  simp only [Bool.false_and, if_pos rfl, if_neg Bool.false_ne_true]
  rw [digitsToNat_natStr, digitsToNat_pad3 hv]
  norm_num [pad3]

theorem cast_div_add_mod_1000 (a : ℕ) :
    ((a / 1000 : ℕ) : ℚ) + ((a % 1000 : ℕ) : ℚ) / 1000 = (a : ℚ) / 1000 := by
  have h : ((1000 * (a / 1000) + a % 1000 : ℕ) : ℚ) = (a : ℚ) := by
    rw [Nat.div_add_mod a 1000]
  push_cast at h
  field_simp
  linarith

theorem parseFloat_eval (s : List Char) (m : ℚ)
    (h : parseMantissa (splitSign (pstrip s)).2 = some (m, [])) :
    parseFloat s = some (if (splitSign (pstrip s)).1 then -m else m) := by
  unfold parseFloat
  rw [h]

theorem parseFloat_fmt3 (q : ℚ) : parseFloat (fmt3 q) = some (rnd3 q) := by
  have hmod : (round (q * 1000)).natAbs % 1000 < 1000 := Nat.mod_lt _ (by norm_num)
  have hps := pstrip_eq_self (fmt3_no_space q)
  by_cases hneg : round (q * 1000) < 0
  · have hfq : fmt3 q = '-' :: (natStr ((round (q * 1000)).natAbs / 1000) ++
        '.' :: pad3 ((round (q * 1000)).natAbs % 1000)) := by
      simp [fmt3, hneg]
    have hss : splitSign (pstrip (fmt3 q)) =
        (true, natStr ((round (q * 1000)).natAbs / 1000) ++
          '.' :: pad3 ((round (q * 1000)).natAbs % 1000)) := by
      rw [hps, hfq]; simp [splitSign]
    have hpm : parseMantissa (splitSign (pstrip (fmt3 q))).2 =
        some ((((round (q * 1000)).natAbs / 1000 : ℕ) : ℚ) +
          (((round (q * 1000)).natAbs % 1000 : ℕ) : ℚ) / 1000, []) := by
      rw [hss]
      exact parseMantissa_core _ _ hmod
    have hss1 : (splitSign (pstrip (fmt3 q))).1 = true := by rw [hss]
    have habs : (((round (q * 1000)).natAbs : ℕ) : ℚ) = -((round (q * 1000) : ℤ) : ℚ) := by
      rw [Int.cast_natAbs]
      exact_mod_cast abs_of_neg hneg
    rw [parseFloat_eval _ _ hpm, hss1, if_pos rfl, cast_div_add_mod_1000, habs, rnd3]
    ring_nf
  · have hfq : fmt3 q = natStr ((round (q * 1000)).natAbs / 1000) ++
        '.' :: pad3 ((round (q * 1000)).natAbs % 1000) := by
      simp [fmt3, hneg]
    obtain ⟨c, I', hI⟩ : ∃ c I', natStr ((round (q * 1000)).natAbs / 1000) = c :: I' := by
      cases hn : natStr ((round (q * 1000)).natAbs / 1000) with
      | nil => exact absurd hn (natStr_ne_nil _)
      | cons c I' => exact ⟨c, I', rfl⟩
    have hcd : isDigitCh c = true := by
      apply natStr_digits
      rw [hI]; simp
    have hss : splitSign (pstrip (fmt3 q)) = (false, fmt3 q) := by
      rw [hps]
      conv in splitSign _ => rw [hfq, hI, List.cons_append]
      rw [splitSign_no_sign _ (digit_excl hcd).2.2.2.2.2.1 (digit_excl hcd).2.2.2.2.2.2,
        ← List.cons_append, ← hI, ← hfq]
    have hpm : parseMantissa (splitSign (pstrip (fmt3 q))).2 =
        some ((((round (q * 1000)).natAbs / 1000 : ℕ) : ℚ) +
          (((round (q * 1000)).natAbs % 1000 : ℕ) : ℚ) / 1000, []) := by
      rw [hss]
      show parseMantissa (fmt3 q) = _
      rw [hfq]
      exact parseMantissa_core _ _ hmod
    have hss1 : (splitSign (pstrip (fmt3 q))).1 = false := by rw [hss]
    have habs : (((round (q * 1000)).natAbs : ℕ) : ℚ) = ((round (q * 1000) : ℤ) : ℚ) := by
      rw [Int.cast_natAbs]
      exact_mod_cast abs_of_nonneg (not_lt.mp hneg)
    rw [parseFloat_eval _ _ hpm, hss1, if_neg Bool.false_ne_true, cast_div_add_mod_1000,
      habs, rnd3]

theorem abs_rnd3_sub (q : ℚ) : |rnd3 q - q| ≤ 1 / 1000 := by
  have h := abs_sub_round (q * 1000)
  have heq : rnd3 q - q = ((round (q * 1000) : ℚ) - q * 1000) / 1000 := by
    unfold rnd3; ring
  rw [heq, abs_div, abs_of_pos (by norm_num : (0:ℚ) < 1000), abs_sub_comm]
  linarith

/- ### The embedded-tag scanner

Both embedded-tag patterns in the code base have the form
`<p>([^<]+)</p>\[(CLASS+)\]` where `CLASS` is `[^\]]` for
`ConversationFormatLoader.annotation_pattern` and `[0-9.,]` for the pattern
of `parse_conversation_format_response` / `is_conversation_format_response`.
Since the character classes exclude the characters that delimit them, these
patterns match deterministically at a given position, and `re.findall` is a
left-to-right scan that emits each match and resumes after it, advancing one
character when no match starts at the current position. -/

/-- Character class `[^<]` of the label group. -/
def labOk (c : Char) : Bool := c != '<'

/-- Coordinate character class `[^\]]` of the loader pattern. -/
def loaderCoordOk (c : Char) : Bool := c != ']'

/-- Coordinate character class `[0-9.,]` of the VLM patterns. -/
def vlmCoordOk (c : Char) : Bool := isDigitCh c || c == '.' || c == ','

/-- Drop an expected literal from the front of the input, or fail. -/
def dropPfx : List Char → List Char → Option (List Char)
  | [], l => some l
  | _ :: _, [] => none
  | p :: ps, c :: cs => if c = p then dropPfx ps cs else none

/-- The text of one embedded tag followed by arbitrary text. -/
def tagChunkR (lab run rest : List Char) : List Char :=
  '<' :: 'p' :: '>' :: (lab ++ '<' :: '/' :: 'p' :: '>' :: '[' :: (run ++ ']' :: rest))

/-- The text of one embedded tag, `<p>lab</p>[run]`. -/
def tagChunk (lab run : List Char) : List Char := tagChunkR lab run []

/-- Final step of a tag match: the character after the coordinate run must
be the closing bracket. -/
def closeBr (groups : List Char × List Char) :
    List Char → Option ((List Char × List Char) × List Char)
  | [] => none
  | c :: r5 => if c = ']' then some (groups, r5) else none

/-- Try to match the tag pattern at the start of the input.  On success,
return the two capture groups (label and coordinate text) and the input
remaining after the match. -/
def matchTag (coordOk : Char → Bool) (cs : List Char) :
    Option ((List Char × List Char) × List Char) :=
  (dropPfx ['<', 'p', '>'] cs).bind fun r1 =>
    if (r1.takeWhile labOk).isEmpty then none
    else
      (dropPfx ['<', '/', 'p', '>', '['] (r1.dropWhile labOk)).bind fun r3 =>
        if (r3.takeWhile coordOk).isEmpty then none
        else closeBr (r1.takeWhile labOk, r3.takeWhile coordOk) (r3.dropWhile coordOk)

/-- Fuel-indexed left-to-right scan emitting every match of the tag
pattern, as `re.findall` does. -/
def findTagsFuel (coordOk : Char → Bool) : ℕ → List Char → List (List Char × List Char)
  | 0, _ => []
  | _ + 1, [] => []
  | f + 1, c :: rest =>
    match matchTag coordOk (c :: rest) with
    | some (pr, r5) => pr :: findTagsFuel coordOk f r5
    | none => findTagsFuel coordOk f rest

/-- All matches of the tag pattern in the input, left to right. -/
def findTags (coordOk : Char → Bool) (cs : List Char) : List (List Char × List Char) :=
  findTagsFuel coordOk cs.length cs

theorem dropPfx_some : ∀ {ps cs r : List Char}, dropPfx ps cs = some r → cs = ps ++ r := by
  intro ps
  induction ps with
  | nil => intro cs r h; cases h; rfl
  | cons p ps ih =>
    intro cs r h
    cases cs with
    | nil => cases h
    | cons c cs' =>
      by_cases hc : c = p
      · subst hc
        simp only [dropPfx, if_pos rfl] at h
        rw [ih h, List.cons_append]
      · simp [dropPfx, hc] at h

theorem dropPfx_append (ps r : List Char) : dropPfx ps (ps ++ r) = some r := by
  induction ps with
  | nil => rfl
  | cons p ps ih => simp [dropPfx, ih]

theorem mem_takeWhile {p : Char → Bool} : ∀ {l : List Char} {c : Char},
    c ∈ l.takeWhile p → p c = true := by
  intro l
  induction l with
  | nil => intro c h; cases h
  | cons x xs ih =>
    intro c h
    rw [List.takeWhile_cons] at h
    by_cases hx : p x = true
    · rw [if_pos hx] at h
      rcases List.mem_cons.mp h with rfl | h2
      · exact hx
      · exact ih h2
    · rw [if_neg hx] at h; cases h

theorem matchTag_length {ok : Char → Bool} {cs : List Char}
    {pr : List Char × List Char} {r5 : List Char}
    (h : matchTag ok cs = some (pr, r5)) : r5.length < cs.length := by
  unfold matchTag at h
  cases h1 : dropPfx ['<', 'p', '>'] cs with
  | none => rw [h1] at h; cases h
  | some r1 =>
    rw [h1] at h
    simp only [Option.some_bind] at h
    have hcs : cs.length = 3 + r1.length := by
      rw [dropPfx_some h1]; simp; omega
    by_cases he1 : (r1.takeWhile labOk).isEmpty
    · rw [if_pos he1] at h; cases h
    · rw [if_neg he1] at h
      cases h2 : dropPfx ['<', '/', 'p', '>', '['] (r1.dropWhile labOk) with
      | none => rw [h2] at h; cases h
      | some r3 =>
        rw [h2] at h
        simp only [Option.some_bind] at h
        have hr2 : (r1.dropWhile labOk).length = 5 + r3.length := by
          rw [dropPfx_some h2]; simp; omega
        have hr2le : (r1.dropWhile labOk).length ≤ r1.length :=
          (List.dropWhile_sublist _).length_le
        by_cases he2 : (r3.takeWhile ok).isEmpty
        · rw [if_pos he2] at h; cases h
        · rw [if_neg he2] at h
          cases h3 : r3.dropWhile ok with
          | nil => rw [h3] at h; cases h
          | cons c r5' =>
            rw [h3] at h
            simp only [closeBr] at h
            have hr4le : (r3.dropWhile ok).length ≤ r3.length :=
              (List.dropWhile_sublist _).length_le
            have hr4 : (r3.dropWhile ok).length = r5'.length + 1 := by rw [h3]; rfl
            by_cases hc : c = ']'
            · rw [if_pos hc] at h
              injection h with h'
              injection h' with _ h5
              subst h5
              omega
            · rw [if_neg hc] at h; cases h

theorem findTagsFuel_congr (ok : Char → Bool) :
    ∀ f g cs, cs.length ≤ f → cs.length ≤ g →
      findTagsFuel ok f cs = findTagsFuel ok g cs := by
  intro f
  induction f with
  | zero =>
    intro g cs hf _
    have : cs = [] := List.length_eq_zero.mp (Nat.le_zero.mp hf)
    subst this
    cases g <;> rfl
  | succ f ih =>
    intro g cs hf hg
    cases cs with
    | nil => cases g <;> rfl
    | cons c rest =>
      cases g with
      | zero => simp at hg
      | succ g' =>
        show (match matchTag ok (c :: rest) with
          | some (pr, r5) => pr :: findTagsFuel ok f r5
          | none => findTagsFuel ok f rest) =
          (match matchTag ok (c :: rest) with
          | some (pr, r5) => pr :: findTagsFuel ok g' r5
          | none => findTagsFuel ok g' rest)
        cases hm : matchTag ok (c :: rest) with
        | some x =>
          obtain ⟨pr, r5⟩ := x
          have hl := matchTag_length hm
          simp only []
          rw [ih g' r5 (by simp at hl hf ⊢; omega) (by simp at hl hg ⊢; omega)]
        | none =>
          simp only []
          exact ih g' rest (by simp at hf ⊢; omega) (by simp at hg ⊢; omega)

theorem findTags_cons_some {ok : Char → Bool} {c : Char} {rest : List Char}
    {pr : List Char × List Char} {r5 : List Char}
    (h : matchTag ok (c :: rest) = some (pr, r5)) :
    findTags ok (c :: rest) = pr :: findTags ok r5 := by
  have hl := matchTag_length h
  show findTagsFuel ok (c :: rest).length (c :: rest) = _
  rw [show (c :: rest).length = rest.length + 1 from rfl]
  show (match matchTag ok (c :: rest) with
    | some (pr, r5) => pr :: findTagsFuel ok rest.length r5
    | none => findTagsFuel ok rest.length rest) = _
  rw [h]
  simp only []
  rw [findTagsFuel_congr ok rest.length r5.length r5 (by simp at hl; omega) le_rfl]
  rfl

theorem findTags_cons_none {ok : Char → Bool} {c : Char} {rest : List Char}
    (h : matchTag ok (c :: rest) = none) :
    findTags ok (c :: rest) = findTags ok rest := by
  show findTagsFuel ok (c :: rest).length (c :: rest) = _
  rw [show (c :: rest).length = rest.length + 1 from rfl]
  show (match matchTag ok (c :: rest) with
    | some (pr, r5) => pr :: findTagsFuel ok rest.length r5
    | none => findTagsFuel ok rest.length rest) = _
  rw [h]
  rfl

theorem labOk_of_ne {c : Char} (h : c ≠ '<') : labOk c = true := by
  simp [labOk, h]

theorem ne_of_labOk {c : Char} (h : labOk c = true) : c ≠ '<' := by
  simpa [labOk] using h

theorem matchTag_tagChunkR (ok : Char → Bool) (lab run rest : List Char)
    (hlab : lab ≠ []) (hlabok : ∀ c ∈ lab, c ≠ '<')
    (hrun : run ≠ []) (hrunok : ∀ c ∈ run, ok c = true) (hrb : ok ']' = false) :
    matchTag ok (tagChunkR lab run rest) = some ((lab, run), rest) := by
  have hlab' : ∀ c ∈ lab, labOk c = true := fun c hc => labOk_of_ne (hlabok c hc)
  have hltf : labOk '<' = false := by decide
  unfold matchTag tagChunkR
  rw [show dropPfx ['<', 'p', '>']
      ('<' :: 'p' :: '>' :: (lab ++ '<' :: '/' :: 'p' :: '>' :: '[' :: (run ++ ']' :: rest)))
      = some (lab ++ '<' :: '/' :: 'p' :: '>' :: '[' :: (run ++ ']' :: rest)) from
    dropPfx_append ['<', 'p', '>'] _]
  simp only [Option.some_bind]
  rw [takeWhile_middle '<' _ hlab' hltf, dropWhile_middle '<' _ hlab' hltf,
    if_neg (by simp [List.isEmpty_iff, hlab])]
  rw [show dropPfx ['<', '/', 'p', '>', '[']
      ('<' :: '/' :: 'p' :: '>' :: '[' :: (run ++ ']' :: rest)) = some (run ++ ']' :: rest)
    from dropPfx_append ['<', '/', 'p', '>', '['] _]
  simp only [Option.some_bind]
  rw [takeWhile_middle ']' rest hrunok hrb, dropWhile_middle ']' rest hrunok hrb,
    if_neg (by simp [List.isEmpty_iff, hrun])]
  simp [closeBr]

theorem matchTag_some_decomp {ok : Char → Bool} {cs : List Char}
    {lab run r5 : List Char} (h : matchTag ok cs = some ((lab, run), r5)) :
    cs = tagChunkR lab run r5 ∧ lab ≠ [] ∧ (∀ c ∈ lab, c ≠ '<') ∧
      run ≠ [] ∧ (∀ c ∈ run, ok c = true) := by
  unfold matchTag at h
  cases h1 : dropPfx ['<', 'p', '>'] cs with
  | none => rw [h1] at h; cases h
  | some r1 =>
    rw [h1] at h
    simp only [Option.some_bind] at h
    by_cases he1 : (r1.takeWhile labOk).isEmpty
    · rw [if_pos he1] at h; cases h
    · rw [if_neg he1] at h
      cases h2 : dropPfx ['<', '/', 'p', '>', '['] (r1.dropWhile labOk) with
      | none => rw [h2] at h; cases h
      | some r3 =>
        rw [h2] at h
        simp only [Option.some_bind] at h
        by_cases he2 : (r3.takeWhile ok).isEmpty
        · rw [if_pos he2] at h; cases h
        · rw [if_neg he2] at h
          cases h3 : r3.dropWhile ok with
          | nil => rw [h3] at h; simp [closeBr] at h
          | cons c r5' =>
            rw [h3] at h
            simp only [closeBr] at h
            by_cases hc : c = ']'
            · rw [if_pos hc] at h
              subst hc
              injection h with h'
              injection h' with hpr hr5
              injection hpr with hL hR
              subst hL; subst hR; subst hr5
              refine ⟨?_, ?_, ?_, ?_, ?_⟩
              · have e1 : r1 = r1.takeWhile labOk ++ r1.dropWhile labOk :=
                  (List.takeWhile_append_dropWhile labOk r1).symm
                have e2 : r1.dropWhile labOk =
                    '<' :: '/' :: 'p' :: '>' :: '[' :: r3 := dropPfx_some h2
                have e3 : r3 = r3.takeWhile ok ++ r3.dropWhile ok :=
                  (List.takeWhile_append_dropWhile ok r3).symm
                rw [dropPfx_some h1]
                unfold tagChunkR
                conv_lhs => rw [e1, e2, e3, h3]
                rfl
              · simpa [List.isEmpty_iff] using he1
              · exact fun c hc => ne_of_labOk (mem_takeWhile hc)
              · simpa [List.isEmpty_iff] using he2
              · exact fun c hc => mem_takeWhile hc
            · rw [if_neg hc] at h; cases h

theorem findTags_append_skip (ok : Char → Bool) (seg rest : List Char)
    (h : ∀ c ∈ seg, c ≠ '<') :
    findTags ok (seg ++ rest) = findTags ok rest := by
  induction seg with
  | nil => simp
  | cons c cs ih =>
    have hc : c ≠ '<' := h c (by simp)
    have hm : matchTag ok (c :: (cs ++ rest)) = none := by
      unfold matchTag
      rw [show dropPfx ['<', 'p', '>'] (c :: (cs ++ rest)) = none by simp [dropPfx, hc]]
      rfl
    rw [List.cons_append, findTags_cons_none hm, ih (fun x hx => h x (by simp [hx]))]

theorem findTags_no_lt (ok : Char → Bool) (seg : List Char) (h : ∀ c ∈ seg, c ≠ '<') :
    findTags ok seg = [] := by
  have h2 := findTags_append_skip ok seg [] h
  simpa using h2

theorem findTags_tagChunkR {ok : Char → Bool} (lab run rest : List Char)
    (hlab : lab ≠ []) (hlabok : ∀ c ∈ lab, c ≠ '<')
    (hrun : run ≠ []) (hrunok : ∀ c ∈ run, ok c = true) (hrb : ok ']' = false) :
    findTags ok (tagChunkR lab run rest) = (lab, run) :: findTags ok rest := by
  have hm := matchTag_tagChunkR ok lab run rest hlab hlabok hrun hrunok hrb
  unfold tagChunkR at hm ⊢
  exact findTags_cons_some hm

theorem tagChunk_append (lab run rest : List Char) :
    tagChunk lab run ++ rest = tagChunkR lab run rest := by
  simp [tagChunk, tagChunkR]

/- ### Python `str.split` on a single separator, and `str.join` -/

/-- Model of Python `s.split(sep)` for a one-character separator: always a
nonempty list of (possibly empty) pieces. -/
def splitSep (sep : Char) : List Char → List (List Char)
  | [] => [[]]
  | c :: r =>
    if c = sep then [] :: splitSep sep r
    else
      match splitSep sep r with
      | h :: t => (c :: h) :: t
      | [] => [[c]]

/-- Model of Python `sep.join(pieces)` for a one-character separator. -/
def joinSep (sep : Char) : List (List Char) → List Char
  | [] => []
  | [p] => p
  | p :: ps => p ++ sep :: joinSep sep ps

/-- Model of Python `sep.join(pieces)` for a multi-character separator. -/
def joinL (sep : List Char) : List (List Char) → List Char
  | [] => []
  | [p] => p
  | p :: ps => p ++ sep ++ joinL sep ps

theorem splitSep_no_sep {sep : Char} {p : List Char} (h : ∀ c ∈ p, c ≠ sep) :
    splitSep sep p = [p] := by
  induction p with
  | nil => rfl
  | cons c r ih =>
    have hc : c ≠ sep := h c (by simp)
    rw [splitSep, if_neg hc, ih (fun x hx => h x (by simp [hx]))]

theorem splitSep_append_sep {sep : Char} {p : List Char} (r : List Char)
    (h : ∀ c ∈ p, c ≠ sep) :
    splitSep sep (p ++ sep :: r) = p :: splitSep sep r := by
  induction p with
  | nil => simp [splitSep]
  | cons c q ih =>
    have hc : c ≠ sep := h c (by simp)
    rw [List.cons_append, splitSep, if_neg hc,
      ih (fun x hx => h x (by simp [hx]))]

theorem splitSep_joinSep {sep : Char} : ∀ {ps : List (List Char)}, ps ≠ [] →
    (∀ p ∈ ps, ∀ c ∈ p, c ≠ sep) → splitSep sep (joinSep sep ps) = ps := by
  intro ps
  induction ps with
  | nil => intro h _; cases h rfl
  | cons p qs ih =>
    intro _ h
    cases qs with
    | nil => exact splitSep_no_sep (h p (by simp))
    | cons q qs' =>
      have hqq : q :: qs' ≠ [] := fun hq => List.noConfusion hq
      rw [joinSep, splitSep_append_sep _ (h p (by simp)),
        ih hqq (fun x hx c hc => h x (by simp [hx]) c hc)]
      exact hqq

/- ### `ConversationFormatLoader._parse_gpt_annotations` -/

/-- Geometry kind strings used by the loader: `point`, `bbox`, `polygon`. -/
inductive AnnType
  | point
  | bbox
  | polygon
deriving DecidableEq, Repr

/-- The dataclass `ConversationAnnot` holding one parsed record
(label, normalized coordinates, geometry kind). -/
structure ConvAnnot where
  label : List Char
  coordinates : List ℚ
  annotation_type : AnnType
deriving DecidableEq, Repr

/-- Parse every piece as a float; one failure drops the whole list
(the `ValueError` path of the source). -/
def parseFloats : List (List Char) → Option (List ℚ)
  | [] => some []
  | t :: ts =>
    match parseFloat t, parseFloats ts with
    | some q, some qs => some (q :: qs)
    | _, _ => none

/-- Loop body of `_parse_gpt_annotations` for one regex match
`(label, coord_str)`: split on commas, strip and parse each piece as a float
(the `float(x.strip())` of the source), classify the coordinate count
(2 → point, 4 → bbox, even ≥ 6 → polygon, otherwise the occurrence is
dropped), and strip the label. -/
def processTag (pr : List Char × List Char) : Option ConvAnnot :=
  (parseFloats ((splitSep ',' pr.2).map pstrip)).bind fun coords =>
    if coords.length = 2 then some ⟨pstrip pr.1, coords, AnnType.point⟩
    else if coords.length = 4 then some ⟨pstrip pr.1, coords, AnnType.bbox⟩
    else if 6 ≤ coords.length ∧ coords.length % 2 = 0 then
      some ⟨pstrip pr.1, coords, AnnType.polygon⟩
    else none

/-- `ConversationFormatLoader._parse_gpt_annotations`: scan the response
text with `annotation_pattern` and keep the valid occurrences. -/
def parseGptAnnotations (text : List Char) : List ConvAnnot :=
  (findTags loaderCoordOk text).filterMap processTag

/- ### `ConversationFormatExporter` helpers -/

/-- A labelme shape as far as this exporter reads it: label, points in
absolute pixel coordinates, and the `shape_type` string. -/
structure PShape where
  label : List Char
  points : List (ℚ × ℚ)
  shape_type : List Char
deriving DecidableEq, Repr

/-- Indexing `points[i]` (the source would raise on a malformed shape;
claims only exercise well-formed ones). -/
def getPt (pts : List (ℚ × ℚ)) (i : ℕ) : ℚ × ℚ := pts.getD i (0, 0)

/-- Indexing `coords[i]`. -/
def getC (l : List ℚ) (i : ℕ) : ℚ := l.getD i 0

/-- The normalized, 3-decimal coordinate text of one shape in
`_format_annotations_in_response`; `none` is the `continue` branch for an
unsupported `shape_type`. -/
def shapeCoordStr (W H : ℚ) (s : PShape) : Option (List Char) :=
  if s.shape_type = "point".toList then
    some (fmt3 ((getPt s.points 0).1 / W) ++ ',' :: fmt3 ((getPt s.points 0).2 / H))
  else if s.shape_type = "rectangle".toList then
    some (fmt3 ((getPt s.points 0).1 / W) ++ ',' ::
      (fmt3 ((getPt s.points 0).2 / H) ++ ',' ::
        (fmt3 ((getPt s.points 1).1 / W) ++ ',' :: fmt3 ((getPt s.points 1).2 / H))))
  else if s.shape_type = "polygon".toList then
    some (joinSep ',' ((s.points.map fun p => [fmt3 (p.1 / W), fmt3 (p.2 / H)]).flatten))
  else none

/-- The fixed sentence returned when there is nothing to format. -/
def noObjectsSentence : List Char :=
  "I don\x27t see any specific objects to detect in this image.".toList

/-- The joining grammar of `_format_annotations_in_response`: one part uses
"There is", two parts are joined by "and", three or more parts form a comma
list with an Oxford comma.  (With zero parts the source raises an
`IndexError`; that case is outside every claim.) -/
def joinParts (parts : List (List Char)) : List Char :=
  match parts with
  | [p] => "There is ".toList ++ p ++ " in the image.".toList
  | [p, q] => "There are ".toList ++ p ++ " and ".toList ++ q ++ " in the image.".toList
  | ps => "There are ".toList ++ joinL ", ".toList ps.dropLast ++ ", and ".toList ++
      ps.getLastD [] ++ " in the image.".toList

/-- `ConversationFormatExporter._format_annotations_in_response`. -/
def formatAnnotationsInResponse (shapes : List PShape) (W H : ℚ) : List Char :=
  if shapes.isEmpty then noObjectsSentence
  else joinParts (shapes.filterMap fun s => (shapeCoordStr W H s).map (tagChunk s.label))

/-- Group a flat coordinate list into consecutive `(x, y)` pairs. -/
def pairUp : List ℚ → List (ℚ × ℚ)
  | x :: y :: r => (x, y) :: pairUp r
  | _ => []

/-- `ConversationFormatLoader._convert_annotation_to_shape`: scale the
normalized coordinates by the image size and build the labelme shape.
(The unknown-geometry branch of the source is unrepresentable here because
`AnnType` is closed.) -/
def convertAnnotationToShape (a : ConvAnnot) (W H : ℚ) : PShape :=
  match a.annotation_type with
  | AnnType.point =>
    ⟨a.label, [(getC a.coordinates 0 * W, getC a.coordinates 1 * H)], "point".toList⟩
  | AnnType.bbox =>
    ⟨a.label, [(getC a.coordinates 0 * W, getC a.coordinates 1 * H),
      (getC a.coordinates 2 * W, getC a.coordinates 3 * H)], "rectangle".toList⟩
  | AnnType.polygon =>
    ⟨a.label, (pairUp a.coordinates).map (fun p => (p.1 * W, p.2 * H)), "polygon".toList⟩

theorem loaderCoordOk_of_ne {c : Char} (h : c ≠ ']') : loaderCoordOk c = true := by
  simp [loaderCoordOk, h]

theorem filterMap_singleton {α β : Type} (f : α → Option β) (a : α) :
    List.filterMap f [a] = (f a).toList := by
  cases hp : f a <;> simp [List.filterMap_cons, hp]

/-- C2 -- The geometry kind produced by `_parse_gpt_annotations` for an
embedded tag occurrence whose numeric tokens all parse is a pure function of
the coordinate count: 2 coordinates give `point`, 4 give `bbox`, any even
count of at least 6 gives `polygon`, and every other count makes the
occurrence produce no record at all. -/
theorem c2_geometry_kind_from_count (lab run : List Char) (coords : List ℚ)
    (hlab : lab ≠ []) (hlabok : ∀ c ∈ lab, c ≠ '<')
    (hrun : run ≠ []) (hrunok : ∀ c ∈ run, c ≠ ']')
    (hc : parseFloats ((splitSep ',' run).map pstrip) = some coords) :
    parseGptAnnotations (tagChunk lab run) =
      (if coords.length = 2 then [⟨pstrip lab, coords, AnnType.point⟩]
       else if coords.length = 4 then [⟨pstrip lab, coords, AnnType.bbox⟩]
       else if 6 ≤ coords.length ∧ coords.length % 2 = 0 then
         [⟨pstrip lab, coords, AnnType.polygon⟩]
       else []) := by
  unfold parseGptAnnotations tagChunk
  rw [findTags_tagChunkR lab run [] hlab hlabok hrun
    (fun c hc => loaderCoordOk_of_ne (hrunok c hc)) (by decide)]
  rw [show findTags loaderCoordOk [] = [] from rfl]
  rw [filterMap_singleton]
  unfold processTag
  simp only []
  rw [hc]
  simp only [Option.some_bind]
  split_ifs <;> rfl

/-- C2 witness: a concrete occurrence with three coordinates is dropped. -/
theorem c2_geometry_kind_from_count_witness :
    parseGptAnnotations (tagChunk "car".toList "1,2,3".toList) = [] := by
  have h := c2_geometry_kind_from_count "car".toList "1,2,3".toList
    [((1 : ℕ) : ℚ), ((2 : ℕ) : ℚ), ((3 : ℕ) : ℚ)]
    (by decide) (by decide) (by decide) (by decide) (by decide)
  simpa using h

/- ### Round trip: helper lemmas -/

/-- The coordinate count an `AnnType` stands for, as `_parse_gpt_annotations`
derives it. -/
def countOk (r : ConvAnnot) : Prop :=
  match r.annotation_type with
  | AnnType.point => r.coordinates.length = 2
  | AnnType.bbox => r.coordinates.length = 4
  | AnnType.polygon => 6 ≤ r.coordinates.length ∧ r.coordinates.length % 2 = 0

instance (r : ConvAnnot) : Decidable (countOk r) := by
  unfold countOk
  cases r.annotation_type <;> infer_instance

theorem filterMap_all_some {α β : Type} (f : α → Option β) (g : α → β) :
    ∀ (l : List α), (∀ a ∈ l, f a = some (g a)) → l.filterMap f = l.map g := by
  intro l
  induction l with
  | nil => intro _; rfl
  | cons a as ih =>
    intro h
    rw [List.filterMap_cons, h a (by simp), List.map_cons,
      ih (fun x hx => h x (by simp [hx]))]

theorem length_eq_four {l : List ℚ} (h : l.length = 4) :
    ∃ a b c d, l = [a, b, c, d] := by
  cases l with
  | nil => simp at h
  | cons a l1 =>
    cases l1 with
    | nil => simp at h
    | cons b l2 =>
      cases l2 with
      | nil => simp at h
      | cons c l3 =>
        cases l3 with
        | nil => simp at h
        | cons d l4 =>
          cases l4 with
          | nil => exact ⟨a, b, c, d, rfl⟩
          | cons e l5 => simp [List.length_cons] at h

theorem mem_joinSep {sep : Char} {c : Char} : ∀ {ps : List (List Char)},
    c ∈ joinSep sep ps → c = sep ∨ ∃ p ∈ ps, c ∈ p := by
  intro ps
  induction ps with
  | nil => intro h; cases h
  | cons p qs ih =>
    intro h
    cases qs with
    | nil =>
      right
      exact ⟨p, by simp, h⟩
    | cons q qs' =>
      rw [show joinSep sep (p :: q :: qs') = p ++ sep :: joinSep sep (q :: qs') from rfl]
        at h
      rcases List.mem_append.mp h with h1 | h1
      · exact Or.inr ⟨p, by simp, h1⟩
      · rcases List.mem_cons.mp h1 with rfl | h2
        · exact Or.inl rfl
        · rcases ih h2 with h3 | ⟨x, hx, hcx⟩
          · exact Or.inl h3
          · exact Or.inr ⟨x, by simp [hx], hcx⟩

theorem joinSep_ne_nil {sep : Char} {p : List Char} {ps : List (List Char)}
    (hp : p ≠ []) : joinSep sep (p :: ps) ≠ [] := by
  cases ps with
  | nil => simpa [joinSep] using hp
  | cons q qs =>
    rw [show joinSep sep (p :: q :: qs) = p ++ sep :: joinSep sep (q :: qs) from rfl]
    simp

theorem fmt3_ne_nil (q : ℚ) : fmt3 q ≠ [] := by
  unfold fmt3
  simp

theorem map_pstrip_fmt3 (coords : List ℚ) :
    (coords.map fmt3).map pstrip = coords.map fmt3 := by
  rw [List.map_map]
  exact List.map_congr_left (fun q _ => pstrip_eq_self (fmt3_no_space q))

theorem parseFloats_fmt3 (coords : List ℚ) :
    parseFloats (coords.map fmt3) = some (coords.map rnd3) := by
  induction coords with
  | nil => rfl
  | cons c cs ih => simp [parseFloats, parseFloat_fmt3, ih]

/-- Processing one well-formed rendered tag recovers the rounded record. -/
theorem processTag_render (lab : List Char) (coords : List ℚ) (t : AnnType)
    (hc : countOk ⟨lab, coords, t⟩) :
    processTag (lab, joinSep ',' (coords.map fmt3)) =
      some ⟨pstrip lab, coords.map rnd3, t⟩ := by
  have hne : coords ≠ [] := by
    intro h
    unfold countOk at hc
    cases t <;> simp [h] at hc
  have hpieces : coords.map fmt3 ≠ [] := by simpa using hne
  have hnc : ∀ p ∈ coords.map fmt3, ∀ c ∈ p, c ≠ ',' := by
    intro p hp c hcp
    obtain ⟨q, _, rfl⟩ := List.mem_map.mp hp
    exact fmt3_ne_comma q c hcp
  unfold processTag
  simp only []
  rw [splitSep_joinSep hpieces hnc, map_pstrip_fmt3, parseFloats_fmt3,
    Option.some_bind]
  have hlen : (coords.map rnd3).length = coords.length := by simp
  unfold countOk at hc
  cases t with
  | point =>
    simp only [] at hc
    rw [if_pos (by rw [hlen]; exact hc)]
  | bbox =>
    simp only [] at hc
    rw [if_neg (by rw [hlen, hc]; norm_num), if_pos (by rw [hlen]; exact hc)]
  | polygon =>
    simp only [] at hc
    rw [if_neg (by rw [hlen]; omega), if_neg (by rw [hlen]; omega),
      if_pos (by rw [hlen]; exact hc)]

theorem pairUp_flatten (f : ℚ → List Char) : ∀ (l : List ℚ), l.length % 2 = 0 →
    ((pairUp l).map fun p => [f p.1, f p.2]).flatten = l.map f
  | [], _ => rfl
  | [x], h => by simp at h
  | x :: y :: r, h => by
    have hr : r.length % 2 = 0 := by simp only [List.length_cons] at h; omega
    simp [pairUp, pairUp_flatten f r hr]

/-- The coordinate text emitted for the shape built from a valid record is
the comma-joined 3-decimal rendering of its coordinates (unit image size). -/
theorem shapeCoordStr_record (r : ConvAnnot) (h : countOk r) :
    shapeCoordStr 1 1 (convertAnnotationToShape r 1 1) =
      some (joinSep ',' (r.coordinates.map fmt3)) := by
  obtain ⟨lab, coords, t⟩ := r
  unfold countOk at h
  cases t with
  | point =>
    simp only [] at h
    obtain ⟨a, b, rfl⟩ := List.length_eq_two.mp h
    simp [convertAnnotationToShape, shapeCoordStr, getC, getPt, joinSep]
  | bbox =>
    simp only [] at h
    obtain ⟨a, b, c, d, rfl⟩ := length_eq_four h
    simp [convertAnnotationToShape, shapeCoordStr, getC, getPt, joinSep]
  | polygon =>
    simp only [] at h
    have hmap : (pairUp coords).map (fun p => (p.1 * 1, p.2 * 1)) = pairUp coords := by
      simp
    simp only [convertAnnotationToShape, shapeCoordStr]
    rw [if_neg (by decide), if_neg (by decide)]
    simp only [if_true]
    rw [hmap]
    congr 1
    congr 1
    have heq : (fun p : ℚ × ℚ => [fmt3 (p.1 / 1), fmt3 (p.2 / 1)]) =
        fun p : ℚ × ℚ => [fmt3 p.1, fmt3 p.2] := by
      funext p; simp
    rw [heq, pairUp_flatten fmt3 coords h.2]

theorem getLastD_concat (l : List (List Char)) (a : List Char) :
    (l ++ [a]).getLastD [] = a := by
  rw [List.getLastD_eq_getLast?, List.getLast?_concat]
  rfl

theorem joinParts_concat2 (a b z : List Char) (mid : List (List Char)) :
    joinParts (a :: b :: (mid ++ [z])) = "There are ".toList ++
      joinL ", ".toList (a :: b :: mid) ++ ", and ".toList ++ z ++
        " in the image.".toList := by
  cases hm : mid ++ [z] with
  | nil => exact absurd hm (by simp)
  | cons r t =>
    show "There are ".toList ++ joinL ", ".toList (a :: b :: r :: t).dropLast ++
        ", and ".toList ++ (a :: b :: r :: t).getLastD [] ++ " in the image.".toList = _
    have hshape : a :: b :: r :: t = (a :: b :: mid) ++ [z] := by rw [← hm]; simp
    rw [hshape, List.dropLast_concat, getLastD_concat]

theorem findTags_joinL (prs : List (List Char × List Char)) (rest : List Char)
    (hprs : ∀ p ∈ prs, p.1 ≠ [] ∧ (∀ c ∈ p.1, c ≠ '<') ∧ p.2 ≠ [] ∧
      (∀ c ∈ p.2, loaderCoordOk c = true)) :
    findTags loaderCoordOk
        (joinL ", ".toList (prs.map fun p => tagChunk p.1 p.2) ++ rest)
      = prs ++ findTags loaderCoordOk rest := by
  induction prs with
  | nil => simp [joinL]
  | cons p ps ih =>
    obtain ⟨h1, h2, h3, h4⟩ := hprs p (by simp)
    cases ps with
    | nil =>
      rw [List.map_cons, List.map_nil,
        show joinL ", ".toList [tagChunk p.1 p.2] = tagChunk p.1 p.2 from rfl,
        tagChunk_append, findTags_tagChunkR p.1 p.2 rest h1 h2 h3 h4 (by decide)]
      simp
    | cons q qs =>
      rw [List.map_cons, List.map_cons,
        show joinL ", ".toList (tagChunk p.1 p.2 :: tagChunk q.1 q.2 ::
          (qs.map fun p => tagChunk p.1 p.2)) = tagChunk p.1 p.2 ++ ", ".toList ++
            joinL ", ".toList (tagChunk q.1 q.2 :: (qs.map fun p => tagChunk p.1 p.2))
          from rfl,
        List.append_assoc, List.append_assoc, tagChunk_append,
        findTags_tagChunkR p.1 p.2 _ h1 h2 h3 h4 (by decide),
        findTags_append_skip loaderCoordOk ", ".toList _ (by decide)]
      rw [← List.map_cons (fun p => tagChunk p.1 p.2) q qs,
        ih (fun x hx => hprs x (by simp [hx]))]
      simp

theorem findTags_joinParts (prs : List (List Char × List Char))
    (hprs : ∀ p ∈ prs, p.1 ≠ [] ∧ (∀ c ∈ p.1, c ≠ '<') ∧ p.2 ≠ [] ∧
      (∀ c ∈ p.2, loaderCoordOk c = true))
    (hne : prs ≠ []) :
    findTags loaderCoordOk (joinParts (prs.map fun p => tagChunk p.1 p.2)) = prs := by
  cases prs with
  | nil => exact absurd rfl hne
  | cons p ps =>
    obtain ⟨h1, h2, h3, h4⟩ := hprs p (by simp)
    cases ps with
    | nil =>
      rw [List.map_cons, List.map_nil,
        show joinParts [tagChunk p.1 p.2] = "There is ".toList ++ tagChunk p.1 p.2 ++
          " in the image.".toList from rfl,
        List.append_assoc, findTags_append_skip loaderCoordOk _ _ (by decide),
        tagChunk_append, findTags_tagChunkR p.1 p.2 _ h1 h2 h3 h4 (by decide),
        findTags_no_lt loaderCoordOk _ (by decide)]
    | cons q qs =>
      obtain ⟨g1, g2, g3, g4⟩ := hprs q (by simp)
      cases qs with
      | nil =>
        rw [List.map_cons, List.map_cons, List.map_nil,
          show joinParts [tagChunk p.1 p.2, tagChunk q.1 q.2] = "There are ".toList ++
            tagChunk p.1 p.2 ++ " and ".toList ++ tagChunk q.1 q.2 ++
              " in the image.".toList from rfl,
          List.append_assoc, List.append_assoc, List.append_assoc,
          findTags_append_skip loaderCoordOk _ _ (by decide),
          tagChunk_append, findTags_tagChunkR p.1 p.2 _ h1 h2 h3 h4 (by decide),
          findTags_append_skip loaderCoordOk _ _ (by decide),
          tagChunk_append, findTags_tagChunkR q.1 q.2 _ g1 g2 g3 g4 (by decide),
          findTags_no_lt loaderCoordOk _ (by decide)]
      | cons r t =>
        obtain ⟨mid, z, hmz⟩ : ∃ mid z, r :: t = mid ++ [z] := by
          rcases List.eq_nil_or_concat (r :: t) with he | ⟨mid, z, hmz⟩
          · cases he
          · exact ⟨mid, z, by simpa [List.concat_eq_append] using hmz⟩
        rw [List.map_cons, List.map_cons, hmz, List.map_append, List.map_cons,
          List.map_nil, joinParts_concat2,
          show "There are ".toList ++ (joinL ", ".toList (tagChunk p.1 p.2 ::
            tagChunk q.1 q.2 :: (mid.map fun p => tagChunk p.1 p.2))) ++
            ", and ".toList ++ tagChunk z.1 z.2 ++ " in the image.".toList =
            "There are ".toList ++ ((joinL ", ".toList ((p :: q :: mid).map
              fun p => tagChunk p.1 p.2)) ++ (", and ".toList ++ (tagChunk z.1 z.2 ++
                " in the image.".toList))) by simp,
          findTags_append_skip loaderCoordOk _ _ (by decide)]
        have hmem : ∀ x ∈ p :: q :: mid, x.1 ≠ [] ∧ (∀ c ∈ x.1, c ≠ '<') ∧ x.2 ≠ [] ∧
            (∀ c ∈ x.2, loaderCoordOk c = true) := by
          intro x hx
          apply hprs
          rcases List.mem_cons.mp hx with rfl | hx1
          · simp
          · rcases List.mem_cons.mp hx1 with rfl | hx2
            · simp
            · have : x ∈ r :: t := by rw [hmz]; exact List.mem_append_left _ hx2
              simp [this]
        have hz : z.1 ≠ [] ∧ (∀ c ∈ z.1, c ≠ '<') ∧ z.2 ≠ [] ∧
            (∀ c ∈ z.2, loaderCoordOk c = true) := by
          apply hprs
          have : z ∈ r :: t := by rw [hmz]; simp
          simp [this]
        rw [findTags_joinL (p :: q :: mid) _ hmem,
          findTags_append_skip loaderCoordOk _ _ (by decide),
          tagChunk_append, findTags_tagChunkR z.1 z.2 _ hz.1 hz.2.1 hz.2.2.1 hz.2.2.2
            (by decide),
          findTags_no_lt loaderCoordOk _ (by decide)]
        simp [hmz]

/-- Encoding a list of valid records (label nonempty and free of `<`,
coordinate count matching the geometry kind) and parsing the result yields
exactly the stripped-label, 3-decimal-rounded records, in order. -/
theorem roundtrip_core (rs : List ConvAnnot)
    (h : ∀ r ∈ rs, r.label ≠ [] ∧ (∀ c ∈ r.label, c ≠ '<') ∧ countOk r) :
    parseGptAnnotations
      (formatAnnotationsInResponse (rs.map fun r => convertAnnotationToShape r 1 1) 1 1)
      = rs.map fun r => ⟨pstrip r.label, r.coordinates.map rnd3, r.annotation_type⟩ := by
  by_cases hrs : rs = []
  · subst hrs
    simp only [List.map_nil]
    rw [show formatAnnotationsInResponse [] 1 1 = noObjectsSentence from rfl]
    unfold parseGptAnnotations
    rw [findTags_no_lt loaderCoordOk _ (by decide)]
    rfl
  · have hcoords_ne : ∀ r ∈ rs, r.coordinates ≠ [] := by
      intro r hr hnil
      have hc := (h r hr).2.2
      unfold countOk at hc
      cases ht : r.annotation_type <;> rw [ht] at hc <;> simp [hnil] at hc
    unfold formatAnnotationsInResponse
    rw [if_neg (by simpa [List.isEmpty_iff] using hrs)]
    have hlabel : ∀ r : ConvAnnot, (convertAnnotationToShape r 1 1).label = r.label := by
      intro r
      unfold convertAnnotationToShape
      cases r.annotation_type <;> rfl
    have hparts : (rs.map fun r => convertAnnotationToShape r 1 1).filterMap
        (fun s => (shapeCoordStr 1 1 s).map (tagChunk s.label)) =
        rs.map fun r => tagChunk r.label (joinSep ',' (r.coordinates.map fmt3)) := by
      rw [List.filterMap_map]
      apply filterMap_all_some
      intro r hr
      show (shapeCoordStr 1 1 (convertAnnotationToShape r 1 1)).map
        (tagChunk (convertAnnotationToShape r 1 1).label) = _
      rw [shapeCoordStr_record r (h r hr).2.2, hlabel r]
      rfl
    rw [hparts,
      show (rs.map fun r => tagChunk r.label (joinSep ',' (r.coordinates.map fmt3))) =
        ((rs.map fun r => (r.label, joinSep ',' (r.coordinates.map fmt3))).map
          fun p => tagChunk p.1 p.2) by rw [List.map_map]; rfl]
    unfold parseGptAnnotations
    have hconds : ∀ p ∈ rs.map fun r => (r.label, joinSep ',' (r.coordinates.map fmt3)),
        p.1 ≠ [] ∧ (∀ c ∈ p.1, c ≠ '<') ∧ p.2 ≠ [] ∧
          (∀ c ∈ p.2, loaderCoordOk c = true) := by
      intro p hp
      obtain ⟨r, hr, rfl⟩ := List.mem_map.mp hp
      refine ⟨(h r hr).1, (h r hr).2.1, ?_, ?_⟩
      · cases hcl : r.coordinates with
        | nil => exact absurd hcl (hcoords_ne r hr)
        | cons c0 cr =>
          exact joinSep_ne_nil (fmt3_ne_nil c0)
      · intro c hc
        rcases mem_joinSep hc with rfl | ⟨pc, hpc, hcpc⟩
        · decide
        · obtain ⟨q, _, rfl⟩ := List.mem_map.mp hpc
          exact loaderCoordOk_of_ne (fmt3_ne_rbr q c hcpc)
    rw [findTags_joinParts _ hconds (by simpa using hrs), List.filterMap_map]
    apply filterMap_all_some
    intro r hr
    show processTag (r.label, joinSep ',' (r.coordinates.map fmt3)) = _
    exact processTag_render r.label r.coordinates r.annotation_type (h r hr).2.2

theorem zip_map_self {α β : Type} (f : α → β) :
    ∀ (l : List α), (l.map f).zip l = l.map fun a => (f a, a) := by
  intro l
  induction l with
  | nil => rfl
  | cons a as ih => simp [ih]

/-- C1 counterexample: the record with label `" car"` meets the claim's
stated validity conditions (the label has no `<`, the coordinate count is
2), yet parsing the encoded text yields the stripped label `"car"`, so the
round trip does not reproduce the labels. -/
theorem c1_roundtrip_counterexample :
    (parseGptAnnotations (formatAnnotationsInResponse
        [convertAnnotationToShape ⟨" car".toList, [(1 : ℚ), (2 : ℚ)], AnnType.point⟩ 1 1]
        1 1)).map ConvAnnot.label ≠ [" car".toList] := by
  have h := roundtrip_core [⟨" car".toList, [(1 : ℚ), (2 : ℚ)], AnnType.point⟩]
    (by
      intro r hr
      rcases List.mem_singleton.mp hr with rfl
      exact ⟨by decide, by decide, by decide⟩)
  rw [List.map_cons, List.map_nil] at h
  rw [h]
  decide

/-- C1 (amended) -- For records whose labels are additionally nonempty and
already whitespace-stripped, encoding with
`ConversationFormatExporter._format_annotations_in_response` and parsing
with `ConversationFormatLoader._parse_gpt_annotations` yields the same
number of records, the same labels and geometry kinds, and every coordinate
within 0.001 of the original. -/
theorem c1_roundtrip_amended (rs : List ConvAnnot)
    (h : ∀ r ∈ rs, r.label ≠ [] ∧ (∀ c ∈ r.label, c ≠ '<') ∧
      pstrip r.label = r.label ∧ countOk r) :
    ((parseGptAnnotations (formatAnnotationsInResponse
        (rs.map fun r => convertAnnotationToShape r 1 1) 1 1)).length = rs.length) ∧
    ((parseGptAnnotations (formatAnnotationsInResponse
        (rs.map fun r => convertAnnotationToShape r 1 1) 1 1)).map ConvAnnot.label =
      rs.map ConvAnnot.label) ∧
    (∀ pr ∈ (parseGptAnnotations (formatAnnotationsInResponse
        (rs.map fun r => convertAnnotationToShape r 1 1) 1 1)).zip rs,
      pr.1.annotation_type = pr.2.annotation_type ∧
      pr.1.coordinates.length = pr.2.coordinates.length ∧
      ∀ qp ∈ pr.1.coordinates.zip pr.2.coordinates, |qp.1 - qp.2| ≤ 1 / 1000) := by
  have hcore := roundtrip_core rs (fun r hr => ⟨(h r hr).1, (h r hr).2.1, (h r hr).2.2.2⟩)
  rw [hcore]
  refine ⟨by simp, ?_, ?_⟩
  · rw [List.map_map]
    exact List.map_congr_left (fun r hr => (h r hr).2.2.1)
  · intro pr hpr
    rw [zip_map_self] at hpr
    obtain ⟨r, hr, rfl⟩ := List.mem_map.mp hpr
    refine ⟨rfl, by simp, ?_⟩
    intro qp hqp
    rw [zip_map_self] at hqp
    obtain ⟨q, _, rfl⟩ := List.mem_map.mp hqp
    exact abs_rnd3_sub q

/-- C1 witness: a concrete valid record round-trips with its label intact. -/
theorem c1_roundtrip_amended_witness :
    (parseGptAnnotations (formatAnnotationsInResponse
        [convertAnnotationToShape ⟨"car".toList, [(1 : ℚ), (2 : ℚ)], AnnType.point⟩ 1 1]
        1 1)).map ConvAnnot.label = ["car".toList] := by
  have h := (c1_roundtrip_amended [⟨"car".toList, [(1 : ℚ), (2 : ℚ)], AnnType.point⟩]
    (by
      intro r hr
      rcases List.mem_singleton.mp hr with rfl
      exact ⟨by decide, by decide, by decide, by decide⟩)).2.1
  simpa using h

/- ### `separate_conversation_types` and `analyze_conversations` -/

/-- One conversation turn as the loader reads it: the dictionary's `from`
field (named `speaker` here, `from` being reserved) and its `value` text. -/
structure ConvTurn where
  speaker : List Char
  value : List Char
deriving DecidableEq, Repr

/-- `ConversationFormatLoader.separate_conversation_types`: a greedy
left-to-right scan; a human turn immediately followed by a gpt turn is
classified as a pair by whether the gpt text parses to any annotation, any
other turn goes alone to the text list. -/
def separateConversationTypes : List ConvTurn → List ConvTurn × List ConvTurn
  | [] => ([], [])
  | [c] => ([], [c])
  | h :: g :: rest =>
    if h.speaker = "human".toList ∧ g.speaker = "gpt".toList then
      if parseGptAnnotations g.value ≠ [] then
        (h :: g :: (separateConversationTypes rest).1, (separateConversationTypes rest).2)
      else
        ((separateConversationTypes rest).1, h :: g :: (separateConversationTypes rest).2)
    else
      ((separateConversationTypes (g :: rest)).1,
        h :: (separateConversationTypes (g :: rest)).2)

/-- The statistics record built by `analyze_conversations`. -/
structure ConvStats where
  total_conversations : ℕ
  grounding_conversations : ℕ
  pure_text_conversations : ℕ
  total_annotations : ℕ
deriving DecidableEq, Repr

/-- Loop body of `analyze_conversations`: only gpt turns are counted, as
grounding when their text parses to at least one annotation. -/
def analyzeStep (s : ConvStats) (c : ConvTurn) : ConvStats :=
  if c.speaker = "gpt".toList then
    if parseGptAnnotations c.value ≠ [] then
      { s with grounding_conversations := s.grounding_conversations + 1,
               total_annotations :=
                 s.total_annotations + (parseGptAnnotations c.value).length }
    else
      { s with pure_text_conversations := s.pure_text_conversations + 1 }
  else s

/-- `ConversationFormatLoader.analyze_conversations`. -/
def analyzeConversations (l : List ConvTurn) : ConvStats :=
  l.foldl analyzeStep ⟨l.length, 0, 0, 0⟩

theorem sep_cons2 (h g : ConvTurn) (rest : List ConvTurn) :
    separateConversationTypes (h :: g :: rest) =
      if h.speaker = "human".toList ∧ g.speaker = "gpt".toList then
        if parseGptAnnotations g.value ≠ [] then
          (h :: g :: (separateConversationTypes rest).1,
            (separateConversationTypes rest).2)
        else
          ((separateConversationTypes rest).1,
            h :: g :: (separateConversationTypes rest).2)
      else
        ((separateConversationTypes (g :: rest)).1,
          h :: (separateConversationTypes (g :: rest)).2) := rfl

theorem sep_sum_perm : ∀ (l : List ConvTurn),
    ((separateConversationTypes l).1.length + (separateConversationTypes l).2.length
      = l.length) ∧
    (((separateConversationTypes l).1 ++ (separateConversationTypes l).2).Perm l)
  | [] => by simp [separateConversationTypes]
  | [c] => by simp [separateConversationTypes]
  | h :: g :: rest => by
    have ih1 := sep_sum_perm rest
    have ih2 := sep_sum_perm (g :: rest)
    simp only [List.length_cons] at ih1 ih2
    rw [sep_cons2]
    by_cases hp : h.speaker = "human".toList ∧ g.speaker = "gpt".toList
    · rw [if_pos hp]
      by_cases ha : parseGptAnnotations g.value ≠ []
      · rw [if_pos ha]
        constructor
        · simp only [List.length_cons]
          omega
        · simp only [List.cons_append]
          exact ((ih1.2).cons g).cons h
      · rw [if_neg ha]
        constructor
        · simp only [List.length_cons]
          omega
        · have hmid : ((separateConversationTypes rest).1 ++
              h :: g :: (separateConversationTypes rest).2).Perm
              (h :: ((separateConversationTypes rest).1 ++
                g :: (separateConversationTypes rest).2)) := List.perm_middle
          refine hmid.trans ?_
          refine List.Perm.cons h ?_
          refine List.Perm.trans List.perm_middle ?_
          exact (ih1.2).cons g
    · rw [if_neg hp]
      constructor
      · simp only [List.length_cons]
        omega
      · refine List.Perm.trans List.perm_middle ?_
        exact (ih2.2).cons h

/-- C3 -- `separate_conversation_types` partitions the input: the output
lists' lengths sum to the input length and their concatenation is a
permutation of the input; the scan is greedy left to right, moving a
(human, gpt) pair whole into the grounding list exactly when the gpt text
parses to at least one annotation record, otherwise whole into the text
list, and putting any turn that does not start such a pair alone into the
text list. -/
theorem c3_separate_partition (l : List ConvTurn) :
    ((separateConversationTypes l).1.length + (separateConversationTypes l).2.length
      = l.length) ∧
    (((separateConversationTypes l).1 ++ (separateConversationTypes l).2).Perm l) ∧
    (∀ h g rest, separateConversationTypes (h :: g :: rest) =
      if h.speaker = "human".toList ∧ g.speaker = "gpt".toList then
        if parseGptAnnotations g.value ≠ [] then
          (h :: g :: (separateConversationTypes rest).1,
            (separateConversationTypes rest).2)
        else
          ((separateConversationTypes rest).1,
            h :: g :: (separateConversationTypes rest).2)
      else
        ((separateConversationTypes (g :: rest)).1,
          h :: (separateConversationTypes (g :: rest)).2)) ∧
    (∀ c, separateConversationTypes [c] = ([], [c])) ∧
    (separateConversationTypes [] = ([], [])) :=
  ⟨(sep_sum_perm l).1, (sep_sum_perm l).2,
    fun h g rest => sep_cons2 h g rest, fun _ => rfl, rfl⟩

/-- The annotation count a turn contributes in `analyze_conversations`. -/
def annCount (c : ConvTurn) : ℕ :=
  if c.speaker = "gpt".toList then (parseGptAnnotations c.value).length else 0

/-- Whether `analyze_conversations` counts the turn as a grounding
conversation. -/
def isGroundingGpt (c : ConvTurn) : Bool :=
  c.speaker = "gpt".toList && !(parseGptAnnotations c.value).isEmpty

/-- Whether `analyze_conversations` counts the turn as a pure-text
conversation. -/
def isTextGpt (c : ConvTurn) : Bool :=
  c.speaker = "gpt".toList && (parseGptAnnotations c.value).isEmpty

theorem analyze_foldl : ∀ (l : List ConvTurn) (s : ConvStats),
    l.foldl analyzeStep s = ⟨s.total_conversations,
      s.grounding_conversations + (l.filter isGroundingGpt).length,
      s.pure_text_conversations + (l.filter isTextGpt).length,
      s.total_annotations + (l.map annCount).sum⟩
  | [], s => by simp
  | c :: cs, s => by
    rw [List.foldl_cons, analyze_foldl cs (analyzeStep s c)]
    by_cases hg : c.speaker = "gpt".toList
    · by_cases ha : parseGptAnnotations c.value ≠ []
      · have hie : (parseGptAnnotations c.value).isEmpty = false := by
          simp [List.isEmpty_iff, ha]
        have h1 : isGroundingGpt c = true := by
          rw [isGroundingGpt, decide_eq_true hg, hie]
          rfl
        have h2 : isTextGpt c = false := by
          rw [isTextGpt, decide_eq_true hg, hie]
          rfl
        have hstep : analyzeStep s c = ⟨s.total_conversations,
            s.grounding_conversations + 1, s.pure_text_conversations,
            s.total_annotations + (parseGptAnnotations c.value).length⟩ := by
          rw [analyzeStep, if_pos hg, if_pos ha]
        have hcnt : annCount c = (parseGptAnnotations c.value).length := by
          rw [annCount, if_pos hg]
        rw [hstep]
        dsimp only
        simp only [List.filter_cons, h1, h2, List.map_cons, List.sum_cons, hcnt,
          Bool.false_eq_true, eq_self_iff_true, if_false, if_true, List.length_cons]
        congr 1 <;> omega
      · have hpe : parseGptAnnotations c.value = [] := not_ne_iff.mp ha
        have hie : (parseGptAnnotations c.value).isEmpty = true := by
          simp [List.isEmpty_iff, hpe]
        have h1 : isGroundingGpt c = false := by
          rw [isGroundingGpt, decide_eq_true hg, hie]
          rfl
        have h2 : isTextGpt c = true := by
          rw [isTextGpt, decide_eq_true hg, hie]
          rfl
        have hstep : analyzeStep s c = ⟨s.total_conversations,
            s.grounding_conversations, s.pure_text_conversations + 1,
            s.total_annotations⟩ := by
          rw [analyzeStep, if_pos hg, if_neg (by simp [hpe])]
        have hcnt : annCount c = 0 := by
          rw [annCount, if_pos hg, hpe]
          rfl
        rw [hstep]
        dsimp only
        simp only [List.filter_cons, h1, h2, List.map_cons, List.sum_cons, hcnt,
          Bool.false_eq_true, eq_self_iff_true, if_false, if_true, List.length_cons]
        congr 1 <;> omega
    · have h1 : isGroundingGpt c = false := by
        rw [isGroundingGpt, decide_eq_false hg]
        rfl
      have h2 : isTextGpt c = false := by
        rw [isTextGpt, decide_eq_false hg]
        rfl
      have hstep : analyzeStep s c = s := by
        rw [analyzeStep, if_neg hg]
      have hcnt : annCount c = 0 := by
        rw [annCount, if_neg hg]
      rw [hstep]
      simp only [List.filter_cons, h1, h2, List.map_cons, List.sum_cons, hcnt,
        Bool.false_eq_true, if_false]
      congr 1
      omega

/-- The turn list formed by a sequence of (human, gpt) turn pairs. -/
def pairList (ps : List (ConvTurn × ConvTurn)) : List ConvTurn :=
  (ps.map fun p => [p.1, p.2]).flatten

theorem analyze_grounding (m : List ConvTurn) :
    (analyzeConversations m).grounding_conversations =
      (m.filter isGroundingGpt).length := by
  unfold analyzeConversations
  rw [analyze_foldl]
  simp

theorem analyze_text (m : List ConvTurn) :
    (analyzeConversations m).pure_text_conversations =
      (m.filter isTextGpt).length := by
  unfold analyzeConversations
  rw [analyze_foldl]
  simp

theorem analyze_ann (m : List ConvTurn) :
    (analyzeConversations m).total_annotations = (m.map annCount).sum := by
  unfold analyzeConversations
  rw [analyze_foldl]
  simp

/-- C4 counterexample: a single gpt turn containing an annotation tag, not
preceded by a human turn, is counted as a grounding conversation by
`analyze_conversations` although `separate_conversation_types` places no
pair in the grounding list. -/
theorem c4_stats_counterexample :
    (analyzeConversations
        [⟨"gpt".toList, tagChunk "a".toList "1,2".toList⟩]).grounding_conversations ≠
      (separateConversationTypes
        [⟨"gpt".toList, tagChunk "a".toList "1,2".toList⟩]).1.length / 2 := by
  decide

/-- C4 (amended) -- On inputs that are sequences of (human, gpt) turn
pairs, the statistics of `analyze_conversations` agree with the partition of
`separate_conversation_types`: grounding count = half the grounding list's
length, pure-text count = half the text list's length, and the total
annotation count is the sum of the per-turn parse counts over the gpt turns
of the grounding list. -/
theorem c4_stats_amended (ps : List (ConvTurn × ConvTurn))
    (h : ∀ p ∈ ps, p.1.speaker = "human".toList ∧ p.2.speaker = "gpt".toList) :
    (analyzeConversations (pairList ps)).grounding_conversations =
      (separateConversationTypes (pairList ps)).1.length / 2 ∧
    (analyzeConversations (pairList ps)).pure_text_conversations =
      (separateConversationTypes (pairList ps)).2.length / 2 ∧
    (analyzeConversations (pairList ps)).total_annotations =
      (((separateConversationTypes (pairList ps)).1.filter
          fun c => c.speaker = "gpt".toList).map
        fun c => (parseGptAnnotations c.value).length).sum := by
  rw [analyze_grounding, analyze_text, analyze_ann]
  induction ps with
  | nil => exact ⟨rfl, rfl, rfl⟩
  | cons p ps' ih =>
    obtain ⟨ih1, ih2, ih3⟩ := ih (fun x hx => h x (List.mem_cons_of_mem p hx))
    obtain ⟨hp1, hp2⟩ := h p (by simp)
    have hl : pairList (p :: ps') = p.1 :: p.2 :: pairList ps' := by
      simp [pairList]
    have hgf : isGroundingGpt p.1 = false := by
      rw [isGroundingGpt, hp1]
      rfl
    have htf : isTextGpt p.1 = false := by
      rw [isTextGpt, hp1]
      rfl
    have hca : annCount p.1 = 0 := by
      rw [annCount, hp1]
      rfl
    have hcg : annCount p.2 = (parseGptAnnotations p.2.value).length := by
      rw [annCount, if_pos hp2]
    have hfh : (decide (p.1.speaker = "gpt".toList)) = false := by
      rw [hp1]
      rfl
    have hfg : (decide (p.2.speaker = "gpt".toList)) = true := by
      rw [hp2]
      rfl
    rw [hl, sep_cons2, if_pos ⟨hp1, hp2⟩]
    by_cases ha : parseGptAnnotations p.2.value ≠ []
    · have hie : (parseGptAnnotations p.2.value).isEmpty = false := by
        simp [List.isEmpty_iff, ha]
      have hgt : isGroundingGpt p.2 = true := by
        rw [isGroundingGpt, decide_eq_true hp2, hie]
        rfl
      have htt : isTextGpt p.2 = false := by
        rw [isTextGpt, decide_eq_true hp2, hie]
        rfl
      rw [if_pos ha]
      refine ⟨?_, ?_, ?_⟩
      · simp only [List.filter_cons, hgf, hgt, Bool.false_eq_true, if_false,
          eq_self_iff_true, if_true, List.length_cons]
        omega
      · simp only [List.filter_cons, htf, htt, Bool.false_eq_true, if_false]
        exact ih2
      · simp only [List.map_cons, List.sum_cons, hca, hcg, List.filter_cons,
          hfh, hfg, Bool.false_eq_true, if_false, eq_self_iff_true, if_true]
        omega
    · have hpe : parseGptAnnotations p.2.value = [] := not_ne_iff.mp ha
      have hie : (parseGptAnnotations p.2.value).isEmpty = true := by
        simp [List.isEmpty_iff, hpe]
      have hgt : isGroundingGpt p.2 = false := by
        rw [isGroundingGpt, decide_eq_true hp2, hie]
        rfl
      have htt : isTextGpt p.2 = true := by
        rw [isTextGpt, decide_eq_true hp2, hie]
        rfl
      rw [if_neg ha]
      refine ⟨?_, ?_, ?_⟩
      · simp only [List.filter_cons, hgf, hgt, Bool.false_eq_true, if_false]
        exact ih1
      · simp only [List.filter_cons, htf, htt, Bool.false_eq_true, if_false,
          eq_self_iff_true, if_true, List.length_cons]
        omega
      · simp only [List.map_cons, List.sum_cons, hca, hcg, hpe,
          List.length_nil]
        omega

/-- C4 witness: a single concrete (human, gpt) pair where the stats and the
partition agree. -/
theorem c4_stats_amended_witness :
    (analyzeConversations (pairList [(⟨"human".toList, "hi".toList⟩,
        ⟨"gpt".toList, tagChunk "a".toList "1,2".toList⟩)])).grounding_conversations =
      (separateConversationTypes (pairList [(⟨"human".toList, "hi".toList⟩,
        ⟨"gpt".toList, tagChunk "a".toList "1,2".toList⟩)])).1.length / 2 :=
  (c4_stats_amended [(⟨"human".toList, "hi".toList⟩,
      ⟨"gpt".toList, tagChunk "a".toList "1,2".toList⟩)]
    (by
      intro p hp
      rcases List.mem_singleton.mp hp with rfl
      exact ⟨rfl, rfl⟩)).1

/- ### `labelme/vlm/utils.py`: response classification and the VLM
embedded-tag parser -/

/-- One detection dictionary produced by
`parse_conversation_format_response`. -/
structure VlmDet where
  bbox : List ℚ
  label : List Char
  description : List Char
deriving DecidableEq, Repr

/-- Loop body of `parse_conversation_format_response` for one match:
split on commas, strip and parse each piece as a float (the
`float(x.strip())` of the source), and keep the occurrence only when there
are exactly four coordinates. -/
def processVlmTag (pr : List Char × List Char) : Option VlmDet :=
  (parseFloats ((splitSep ',' pr.2).map pstrip)).bind fun coords =>
    if coords.length = 4 then some ⟨coords, pstrip pr.1, []⟩ else none

/-- `parse_conversation_format_response`: scan with the `[0-9.,]`
coordinate class; the description returned is the raw text. -/
def parseConversationFormatResponse (text : List Char) : List VlmDet × List Char :=
  ((findTags vlmCoordOk text).filterMap processVlmTag, text)

/-- Does the list start with the given character (`str.startswith`)? -/
def startsWithCh (c : Char) (l : List Char) : Bool :=
  match l with
  | [] => false
  | a :: _ => a == c

/-- Does the list end with the given character (`str.endswith`)? -/
def endsWithCh (c : Char) (l : List Char) : Bool :=
  startsWithCh c l.reverse

/-- Python substring test `pat in s`: does `pat` occur contiguously? -/
def containsSeq (pat : List Char) : List Char → Bool
  | [] => pat.isEmpty
  | c :: rest => pat.isPrefixOf (c :: rest) || containsSeq pat rest

/-- `is_json_response`: the stripped text is bracketed by `[`/`]`, or it
contains the fenced-block marker. -/
def isJsonResponse (t : List Char) : Bool :=
  (startsWithCh '[' (pstrip t) && endsWithCh ']' (pstrip t)) ||
    containsSeq ("```json".toList) (pstrip t)

/-- `is_conversation_format_response`: `re.search` of the embedded-tag
pattern, modelled as nonemptiness of the match scan. -/
def isConversationFormatResponse (t : List Char) : Bool :=
  !(findTags vlmCoordOk t).isEmpty

/-- The three response schemas `detect_objects_with_vlm` distinguishes. -/
inductive SchemaKind
  | embeddedTag
  | jsonArray
  | unrecognized
deriving DecidableEq, Repr

/-- The schema choice of `detect_objects_with_vlm` (lines 88 / 121 / 154):
the embedded-tag test runs first, then the JSON test, else unrecognized. -/
def classifyResponse (t : List Char) : SchemaKind :=
  if isConversationFormatResponse t then SchemaKind.embeddedTag
  else if isJsonResponse t then SchemaKind.jsonArray
  else SchemaKind.unrecognized

/-- The branch structure of `detect_objects_with_vlm` after inference.
The JSON branch involves `json.loads` and model-space scaling, which this
claim does not inspect; that branch's result is abstracted as the argument
`jsonResult`. -/
def detectObjectsBranch (jsonResult : List VlmDet × List Char)
    (raw : List Char) : List VlmDet × List Char :=
  if isConversationFormatResponse raw then parseConversationFormatResponse raw
  else if isJsonResponse raw then jsonResult
  else ([], raw)

/-- The text contains at least one occurrence of the embedded-tag pattern
with the `[0-9.,]` coordinate class. -/
def hasVlmTag (t : List Char) : Prop :=
  ∃ pre lab run post, t = pre ++ tagChunkR lab run post ∧ lab ≠ [] ∧
    (∀ c ∈ lab, c ≠ '<') ∧ run ≠ [] ∧ (∀ c ∈ run, vlmCoordOk c = true)

/-- The stripped text is bracketed by `[` and `]`, or contains the fenced
JSON marker. -/
def jsonArrayShape (t : List Char) : Prop :=
  ((pstrip t).head? = some '[' ∧ (pstrip t).getLast? = some ']') ∨
    List.IsInfix ("```json".toList) (pstrip t)

theorem findTags_ne_nil_of_tag (ok : Char → Bool) (hok : ok ']' = false) :
    ∀ (pre lab run post : List Char), lab ≠ [] → (∀ c ∈ lab, c ≠ '<') →
      run ≠ [] → (∀ c ∈ run, ok c = true) →
      findTags ok (pre ++ tagChunkR lab run post) ≠ []
  | [], lab, run, post, h1, h2, h3, h4 => by
    rw [List.nil_append, findTags_tagChunkR lab run post h1 h2 h3 h4 hok]
    simp
  | c :: pre', lab, run, post, h1, h2, h3, h4 => by
    rw [List.cons_append]
    cases hm : matchTag ok (c :: (pre' ++ tagChunkR lab run post)) with
    | some x =>
      obtain ⟨pr, r5⟩ := x
      rw [findTags_cons_some hm]
      simp
    | none =>
      rw [findTags_cons_none hm]
      exact findTags_ne_nil_of_tag ok hok pre' lab run post h1 h2 h3 h4

theorem findTags_ne_nil_decomp (ok : Char → Bool) :
    ∀ (n : ℕ) (t : List Char), t.length ≤ n → findTags ok t ≠ [] →
      ∃ pre lab run post, t = pre ++ tagChunkR lab run post ∧ lab ≠ [] ∧
        (∀ c ∈ lab, c ≠ '<') ∧ run ≠ [] ∧ (∀ c ∈ run, ok c = true)
  | 0, t, hlen, hne => by
    have ht : t = [] := List.length_eq_zero.mp (Nat.le_zero.mp hlen)
    subst ht
    exact absurd rfl hne
  | n + 1, t, hlen, hne => by
    cases t with
    | nil => exact absurd rfl hne
    | cons c rest =>
      cases hm : matchTag ok (c :: rest) with
      | some x =>
        obtain ⟨⟨lab, run⟩, r5⟩ := x
        obtain ⟨hdec, h1, h2, h3, h4⟩ := matchTag_some_decomp hm
        exact ⟨[], lab, run, r5, by rw [hdec]; rfl, h1, h2, h3, h4⟩
      | none =>
        rw [findTags_cons_none hm] at hne
        obtain ⟨pre, lab, run, post, hdec, h1, h2, h3, h4⟩ :=
          findTags_ne_nil_decomp ok n rest
            (by simp only [List.length_cons] at hlen; omega) hne
        exact ⟨c :: pre, lab, run, post, by rw [List.cons_append, hdec], h1, h2,
          h3, h4⟩

theorem findTags_ne_nil_iff (ok : Char → Bool) (hok : ok ']' = false)
    (t : List Char) :
    findTags ok t ≠ [] ↔ ∃ pre lab run post, t = pre ++ tagChunkR lab run post ∧
      lab ≠ [] ∧ (∀ c ∈ lab, c ≠ '<') ∧ run ≠ [] ∧ (∀ c ∈ run, ok c = true) := by
  constructor
  · intro hne
    exact findTags_ne_nil_decomp ok t.length t le_rfl hne
  · rintro ⟨pre, lab, run, post, rfl, h1, h2, h3, h4⟩
    exact findTags_ne_nil_of_tag ok hok pre lab run post h1 h2 h3 h4

theorem isConversationFormatResponse_iff (t : List Char) :
    isConversationFormatResponse t = true ↔ hasVlmTag t := by
  unfold isConversationFormatResponse hasVlmTag
  constructor
  · intro hie
    apply (findTags_ne_nil_iff vlmCoordOk (by decide) t).mp
    intro hnil
    rw [hnil] at hie
    simp at hie
  · intro hv
    have hne := (findTags_ne_nil_iff vlmCoordOk (by decide) t).mpr hv
    cases hft : findTags vlmCoordOk t with
    | nil => exact absurd hft hne
    | cons a l => rfl

theorem containsSeq_iff (pat : List Char) : ∀ (l : List Char),
    containsSeq pat l = true ↔ List.IsInfix pat l
  | [] => by
    rw [containsSeq, List.isEmpty_iff]
    exact List.infix_nil.symm
  | c :: rest => by
    rw [containsSeq, Bool.or_eq_true, List.isPrefixOf_iff_prefix,
      containsSeq_iff pat rest]
    exact List.infix_cons_iff.symm

theorem startsWithCh_iff (c : Char) (l : List Char) :
    startsWithCh c l = true ↔ l.head? = some c := by
  cases l with
  | nil => simp [startsWithCh]
  | cons a r => simp [startsWithCh, beq_iff_eq]

theorem isJsonResponse_iff (t : List Char) :
    isJsonResponse t = true ↔ jsonArrayShape t := by
  unfold isJsonResponse jsonArrayShape endsWithCh
  rw [Bool.or_eq_true, Bool.and_eq_true, startsWithCh_iff, startsWithCh_iff,
    List.head?_reverse, containsSeq_iff]

/-- C5 -- Schema classification priority of `detect_objects_with_vlm`:
a text containing at least one embedded `<p>label</p>[coords]` occurrence
is classified as the embedded-tag schema (that branch is tested first);
otherwise a text that, stripped, starts with `[` and ends with `]`, or
contains the fenced JSON marker, is classified as the JSON-array schema;
otherwise it is unrecognized, and in that case the branch returns the raw
text with zero detections. -/
theorem c5_schema_priority (t : List Char) :
    (classifyResponse t = SchemaKind.embeddedTag ↔ hasVlmTag t) ∧
    (classifyResponse t = SchemaKind.jsonArray ↔ ¬hasVlmTag t ∧ jsonArrayShape t) ∧
    (classifyResponse t = SchemaKind.unrecognized ↔
      ¬hasVlmTag t ∧ ¬jsonArrayShape t) ∧
    (∀ jsonResult, classifyResponse t = SchemaKind.unrecognized →
      detectObjectsBranch jsonResult t = ([], t)) := by
  have h1 := isConversationFormatResponse_iff t
  have h2 := isJsonResponse_iff t
  unfold classifyResponse detectObjectsBranch
  by_cases hc : isConversationFormatResponse t = true
  · have hv : hasVlmTag t := h1.mp hc
    rw [if_pos hc]
    refine ⟨⟨fun _ => hv, fun _ => rfl⟩,
      iff_of_false (by decide) (fun h => h.1 hv),
      iff_of_false (by decide) (fun h => h.1 hv), ?_⟩
    intro jr hbad
    exact absurd hbad (by decide)
  · have hv : ¬hasVlmTag t := fun hvt => hc (h1.mpr hvt)
    rw [if_neg hc]
    by_cases hj : isJsonResponse t = true
    · have hs : jsonArrayShape t := h2.mp hj
      rw [if_pos hj]
      refine ⟨iff_of_false (by decide) hv,
        iff_of_true rfl ⟨hv, hs⟩,
        iff_of_false (by decide) (fun h => h.2 hs), ?_⟩
      intro jr hbad
      exact absurd hbad (by decide)
    · have hs : ¬jsonArrayShape t := fun hsj => hj (h2.mpr hsj)
      rw [if_neg hj]
      exact ⟨iff_of_false (by decide) hv,
        iff_of_false (by decide) (fun h => hs h.2),
        iff_of_true rfl ⟨hv, hs⟩,
        fun jr _ => by rw [if_neg hc, if_neg hj]⟩

/- ### `parse_vlm_json_response`: the three JSON detection schemas -/

/-- JSON values as `json.loads` produces them.  The claims quantify over
the parsed value; the textual `json.loads` stage is the boundary of this
model. -/
inductive JVal
  | num (q : ℚ)
  | str (s : List Char)
  | boolean (b : Bool)
  | null
  | arr (l : List JVal)
  | obj (fields : List (List Char × JVal))

/-- Dictionary lookup `item.get(k)` (keys of a `json.loads` dict are
unique, so the first match suffices). -/
def objGet (fields : List (List Char × JVal)) (k : List Char) : Option JVal :=
  (fields.find? (fun f => f.1 == k)).map (fun f => f.2)

/-- `isinstance(item, dict) and k1 in item and k2 in item`. -/
def isObjWithKeys (k1 k2 : List Char) (v : JVal) : Bool :=
  match v with
  | JVal.obj o => (objGet o k1).isSome && (objGet o k2).isSome
  | _ => false

/-- Schema-B element conversion: `bbox_2d`/`label` into the canonical
`bbox`/`label` shape with `description` and `confidence` defaults. -/
def convBboxAlt : JVal → Option JVal
  | JVal.obj o =>
    match objGet o "bbox_2d".toList, objGet o "label".toList with
    | some b, some lab =>
      some (JVal.obj [("bbox".toList, b), ("label".toList, lab),
        ("description".toList, (objGet o "description".toList).getD (JVal.str [])),
        ("confidence".toList, (objGet o "confidence".toList).getD JVal.null)])
    | _, _ => none
  | _ => none

/-- Schema-C element conversion: `position{x,y}`/`type` into a zero-area
`bbox` `[x,y,x,y]` with label from `type`.  A `position` that is not a
dictionary raises in the source (`pos.get`), modelled as failure. -/
def convPosition : JVal → Option JVal
  | JVal.obj o =>
    match objGet o "position".toList, objGet o "type".toList with
    | some pos, some ty =>
      match pos with
      | JVal.obj po =>
        some (JVal.obj [("bbox".toList, JVal.arr
            [(objGet po "x".toList).getD (JVal.num 0),
             (objGet po "y".toList).getD (JVal.num 0),
             (objGet po "x".toList).getD (JVal.num 0),
             (objGet po "y".toList).getD (JVal.num 0)]),
          ("label".toList, ty),
          ("description".toList, (objGet o "description".toList).getD (JVal.str [])),
          ("confidence".toList, (objGet o "confidence".toList).getD JVal.null)])
      | _ => none
    | _, _ => none
  | _ => none

/-- Convert every element or fail without partial results (the loop in the
source raises out of the whole function on the first failing element). -/
def mapJson (f : JVal → Option JVal) : List JVal → Option (List JVal)
  | [] => some []
  | x :: xs =>
    match f x, mapJson f xs with
    | some y, some ys => some (y :: ys)
    | _, _ => none

/-- `parse_vlm_json_response` after `json.loads`: try the three schema
checks uniformly over the array, in order; `none` models the raised
error (no partial results). -/
def parseVlmJsonData (data : JVal) : Option (List JVal) :=
  match data with
  | JVal.arr items =>
    if items.all (isObjWithKeys "bbox".toList "label".toList) then some items
    else if items.all (isObjWithKeys "bbox_2d".toList "label".toList) then
      mapJson convBboxAlt items
    else if items.all (isObjWithKeys "position".toList "type".toList) then
      mapJson convPosition items
    else none
  | _ => none

/-- The canonical detection shape: a dictionary with `bbox` and `label`. -/
def isCanonicalDet (v : JVal) : Prop :=
  ∃ o, v = JVal.obj o ∧ (objGet o "bbox".toList).isSome = true ∧
    (objGet o "label".toList).isSome = true

theorem mem_mapJson {f : JVal → Option JVal} :
    ∀ {l r : List JVal}, mapJson f l = some r →
      ∀ y ∈ r, ∃ x ∈ l, f x = some y := by
  intro l
  induction l with
  | nil =>
    intro r h y hy
    cases h
    cases hy
  | cons x xs ih =>
    intro r h y hy
    cases hfx : f x with
    | none => simp [mapJson, hfx] at h
    | some y0 =>
      cases hrec : mapJson f xs with
      | none => simp [mapJson, hfx, hrec] at h
      | some ys =>
        simp only [mapJson, hfx, hrec] at h
        cases h
        rcases List.mem_cons.mp hy with rfl | hy2
        · exact ⟨x, by simp, hfx⟩
        · obtain ⟨x2, hx2, hfx2⟩ := ih hrec y hy2
          exact ⟨x2, by simp [hx2], hfx2⟩

theorem convBboxAlt_canonical {x y : JVal} (h : convBboxAlt x = some y) :
    isCanonicalDet y := by
  cases x with
  | obj o =>
    simp only [convBboxAlt] at h
    cases hb : objGet o "bbox_2d".toList with
    | none => rw [hb] at h; simp at h
    | some b =>
      cases hl : objGet o "label".toList with
      | none => rw [hb, hl] at h; simp at h
      | some lab =>
        rw [hb, hl] at h
        simp at h
        exact ⟨_, h.symm, rfl, rfl⟩
  | num q => simp [convBboxAlt] at h
  | str s => simp [convBboxAlt] at h
  | boolean b => simp [convBboxAlt] at h
  | null => simp [convBboxAlt] at h
  | arr l => simp [convBboxAlt] at h

theorem convPosition_canonical {x y : JVal} (h : convPosition x = some y) :
    isCanonicalDet y := by
  cases x with
  | obj o =>
    simp only [convPosition] at h
    cases hb : objGet o "position".toList with
    | none => rw [hb] at h; simp at h
    | some pos =>
      cases hl : objGet o "type".toList with
      | none => rw [hb, hl] at h; simp at h
      | some ty =>
        rw [hb, hl] at h
        cases pos with
        | obj po =>
          simp at h
          exact ⟨_, h.symm, rfl, rfl⟩
        | num q => simp at h
        | str s => simp at h
        | boolean b => simp at h
        | null => simp at h
        | arr l => simp at h
  | num q => simp [convPosition] at h
  | str s => simp [convPosition] at h
  | boolean b => simp [convPosition] at h
  | null => simp [convPosition] at h
  | arr l => simp [convPosition] at h

theorem isObjWithKeys_canonical {v : JVal}
    (h : isObjWithKeys "bbox".toList "label".toList v = true) : isCanonicalDet v := by
  cases v with
  | obj o =>
    simp only [isObjWithKeys, Bool.and_eq_true] at h
    exact ⟨o, rfl, h.1, h.2⟩
  | num q => simp [isObjWithKeys] at h
  | str s => simp [isObjWithKeys] at h
  | boolean b => simp [isObjWithKeys] at h
  | null => simp [isObjWithKeys] at h
  | arr l => simp [isObjWithKeys] at h

/-- C6 -- `parse_vlm_json_response` on a parsed JSON payload: a success is
only possible when the payload is an array every element of which matches
the same one of the three schemas, and then every returned element carries
the canonical `bbox` and `label` fields; when no schema matches uniformly
the whole call fails with no partial results; and equivalent inputs in the
three field shapes normalize to the same canonical `bbox` and `label`. -/
theorem c6_json_schema (data : JVal) :
    (∀ res, parseVlmJsonData data = some res →
      (∃ items, data = JVal.arr items ∧
        (items.all (isObjWithKeys "bbox".toList "label".toList) = true ∨
         items.all (isObjWithKeys "bbox_2d".toList "label".toList) = true ∨
         items.all (isObjWithKeys "position".toList "type".toList) = true)) ∧
      ∀ el ∈ res, isCanonicalDet el) ∧
    (∀ items, data = JVal.arr items →
      items.all (isObjWithKeys "bbox".toList "label".toList) = false →
      items.all (isObjWithKeys "bbox_2d".toList "label".toList) = false →
      items.all (isObjWithKeys "position".toList "type".toList) = false →
      parseVlmJsonData data = none) ∧
    (∀ b lab,
      parseVlmJsonData
          (JVal.arr [JVal.obj [("bbox".toList, b), ("label".toList, lab)]])
        = some [JVal.obj [("bbox".toList, b), ("label".toList, lab)]] ∧
      parseVlmJsonData
          (JVal.arr [JVal.obj [("bbox_2d".toList, b), ("label".toList, lab)]])
        = some [JVal.obj [("bbox".toList, b), ("label".toList, lab),
            ("description".toList, JVal.str []), ("confidence".toList, JVal.null)]]) ∧
    (∀ x y lab,
      parseVlmJsonData (JVal.arr [JVal.obj
          [("position".toList, JVal.obj [("x".toList, x), ("y".toList, y)]),
           ("type".toList, lab)]])
        = some [JVal.obj [("bbox".toList, JVal.arr [x, y, x, y]),
            ("label".toList, lab),
            ("description".toList, JVal.str []), ("confidence".toList, JVal.null)]]) := by
  refine ⟨?_, ?_, fun b lab => ⟨rfl, rfl⟩, fun x y lab => rfl⟩
  · intro res hres
    cases data with
    | arr items =>
      simp only [parseVlmJsonData] at hres
      by_cases hA : items.all (isObjWithKeys "bbox".toList "label".toList) = true
      · rw [if_pos hA] at hres
        injection hres with he
        have he2 : res = items := he.symm
        subst he2
        refine ⟨⟨res, rfl, Or.inl hA⟩, ?_⟩
        intro el hel
        exact isObjWithKeys_canonical (List.all_eq_true.mp hA el hel)
      · rw [if_neg hA] at hres
        by_cases hB : items.all (isObjWithKeys "bbox_2d".toList "label".toList) = true
        · rw [if_pos hB] at hres
          refine ⟨⟨items, rfl, Or.inr (Or.inl hB)⟩, ?_⟩
          intro el hel
          obtain ⟨x, _, hx⟩ := mem_mapJson hres el hel
          exact convBboxAlt_canonical hx
        · rw [if_neg hB] at hres
          by_cases hC : items.all (isObjWithKeys "position".toList "type".toList) = true
          · rw [if_pos hC] at hres
            refine ⟨⟨items, rfl, Or.inr (Or.inr hC)⟩, ?_⟩
            intro el hel
            obtain ⟨x, _, hx⟩ := mem_mapJson hres el hel
            exact convPosition_canonical hx
          · rw [if_neg hC] at hres
            cases hres
    | num q => simp [parseVlmJsonData] at hres
    | str s => simp [parseVlmJsonData] at hres
    | boolean b => simp [parseVlmJsonData] at hres
    | null => simp [parseVlmJsonData] at hres
    | obj o => simp [parseVlmJsonData] at hres
  · rintro items rfl hA hB hC
    simp only [parseVlmJsonData]
    rw [if_neg (fun h => Bool.false_ne_true (hA.symm.trans h)),
      if_neg (fun h => Bool.false_ne_true (hB.symm.trans h)),
      if_neg (fun h => Bool.false_ne_true (hC.symm.trans h))]

/-- C6 witness: an array whose single element matches no schema fails with
no partial results. -/
theorem c6_json_schema_witness :
    parseVlmJsonData (JVal.arr [JVal.num 0]) = none :=
  (c6_json_schema (JVal.arr [JVal.num 0])).2.1 [JVal.num 0] rfl rfl rfl rfl

/-! ### `convert_detections_to_labelme_shapes` (src/labelme/vlm/utils.py 153-209) -/

/-- Python `int()` applied to a float: truncation toward zero. -/
def pyint (q : ℚ) : ℤ :=
  if q < 0 then -⌊-q⌋ else ⌊q⌋

/-- A `BboxDetection` as handed to the converter: the four bbox entries that
`x1, y1, x2, y2 = detection.bbox` unpacks, the label, and the description
(with `detection.description or ""` already applied). -/
structure BboxDetection where
  bbox : ℚ × ℚ × ℚ × ℚ
  label : List Char
  description : List Char

/-- One labelme shape dictionary produced by the converter (the fields that
vary; `group_id`/`flags` are the constants `None`/`{}`). -/
structure LShape where
  label : List Char
  points : List (ℤ × ℤ)
  shape_type : List Char
  description : List Char

/-- Generic fail-fast traversal: `none` as soon as `f` fails (a raised
exception aborts the whole loop). -/
def mapOpt {α β : Type} (f : α → Option β) : List α → Option (List β)
  | [] => some []
  | x :: xs =>
    match f x, mapOpt f xs with
    | some y, some ys => some (y :: ys)
    | _, _ => none

/-- The loop body of `convert_detections_to_labelme_shapes` on one detection:
scale (normalized or model-input space), reorder per axis, build the shape.
`none` models the `ValueError` when `model_input_size` is missing. -/
def convertOne (imgH imgW : ℚ) (modelInputSize : Option (ℚ × ℚ))
    (normalizedCoords : Bool) (d : BboxDetection) : Option LShape :=
  (if normalizedCoords then
      some (pyint (d.bbox.1 * imgW), pyint (d.bbox.2.1 * imgH),
            pyint (d.bbox.2.2.1 * imgW), pyint (d.bbox.2.2.2 * imgH))
    else
      match modelInputSize with
      | none => none
      | some mi =>
          some (pyint (d.bbox.1 / mi.2 * imgW), pyint (d.bbox.2.1 / mi.1 * imgH),
                pyint (d.bbox.2.2.1 / mi.2 * imgW), pyint (d.bbox.2.2.2 / mi.1 * imgH))).bind
    fun a =>
      some ⟨d.label,
            [(if a.1 > a.2.2.1 then a.2.2.1 else a.1,
              if a.2.1 > a.2.2.2 then a.2.2.2 else a.2.1),
             (if a.1 > a.2.2.1 then a.1 else a.2.2.1,
              if a.2.1 > a.2.2.2 then a.2.1 else a.2.2.2)],
            "rectangle".toList, d.description⟩

/-- `convert_detections_to_labelme_shapes`: `image_shape` is `(height, width)`,
`model_input_size` is `(height, width)` or absent. -/
def convertDetectionsToLabelmeShapes (detections : List BboxDetection)
    (imageShape : ℚ × ℚ) (modelInputSize : Option (ℚ × ℚ))
    (normalizedCoords : Bool) : Option (List LShape) :=
  mapOpt (convertOne imageShape.1 imageShape.2 modelInputSize normalizedCoords)
    detections

theorem if_gt_min (a b : ℤ) : (if a > b then b else a) = min a b := by
  split_ifs with h
  · exact (min_eq_right (le_of_lt h)).symm
  · exact (min_eq_left (not_lt.mp h)).symm

theorem if_gt_max (a b : ℤ) : (if a > b then a else b) = max a b := by
  split_ifs with h
  · exact (max_eq_left (le_of_lt h)).symm
  · exact (max_eq_right (not_lt.mp h)).symm

/-- C7 counterexample: with model input size (height 1, width 2) and image
size (height 1, width 3), a detection at x = 1 is emitted at pixel 1, not at
the exact ratio 1 * (3/2): `int()` truncates the scaled coordinate. -/
theorem c7_scaling_counterexample :
    convertDetectionsToLabelmeShapes [⟨(1, 1, 1, 1), "a".toList, []⟩]
        (1, 3) (some (1, 2)) false =
      some [⟨"a".toList, [(1, 1), (1, 1)], "rectangle".toList, []⟩] ∧
    ¬ ((1 : ℚ) = 1 * (3 / 2)) := by
  constructor
  · simp only [convertDetectionsToLabelmeShapes, mapOpt, convertOne,
      Bool.false_eq_true, if_false, Option.some_bind]
    norm_num [pyint]
  · norm_num

/-- C7 (amended): in model-input space, each emitted x coordinate is the
`int()`-truncation of x * image_w / model_w (y analogously with heights), and
the two emitted points are the per-axis (min, min) and (max, max) of the two
scaled endpoints, for every box, including reversed ones. -/
theorem c7_model_space_conversion (mh mw ih iw x1 y1 x2 y2 : ℚ)
    (lab desc : List Char) :
    convertDetectionsToLabelmeShapes [⟨(x1, y1, x2, y2), lab, desc⟩]
        (ih, iw) (some (mh, mw)) false =
      some [⟨lab,
        [(min (pyint (x1 / mw * iw)) (pyint (x2 / mw * iw)),
          min (pyint (y1 / mh * ih)) (pyint (y2 / mh * ih))),
         (max (pyint (x1 / mw * iw)) (pyint (x2 / mw * iw)),
          max (pyint (y1 / mh * ih)) (pyint (y2 / mh * ih)))],
        "rectangle".toList, desc⟩] := by
  simp only [convertDetectionsToLabelmeShapes, mapOpt, convertOne,
    Bool.false_eq_true, if_false, Option.some_bind, if_gt_min, if_gt_max]

/-! ### `ShareGPTExporter`: task grouping and document assembly
    (src/labelme/conversation_format.py) -/

/-- A shape as the two ShareGPT export entry points read it: the label, the
`vlm_task` value stored directly on the shape (what `export_single_file` and
`export_to_directory` read with `shape.get`), and the `vlm_task` value stored
in the shape `other_data` dictionary (what `export` reads); `none` when the
key or the dictionary is absent. -/
structure TShape where
  label : List Char
  vlm_task : Option (List Char)
  other_vlm_task : Option (List Char)
deriving DecidableEq, Repr

/-- The grouping loop of `export_single_file` (lines 715-724): strict on the
shape-level `vlm_task`; a shape with any other value, or none, joins neither
group. -/
def groupShapesSingleFile : List TShape → List TShape × List TShape
  | [] => ([], [])
  | s :: rest =>
    if s.vlm_task = some "Detection".toList then
      (s :: (groupShapesSingleFile rest).1, (groupShapesSingleFile rest).2)
    else if s.vlm_task = some "OCR".toList then
      ((groupShapesSingleFile rest).1, s :: (groupShapesSingleFile rest).2)
    else ((groupShapesSingleFile rest).1, (groupShapesSingleFile rest).2)

/-- `hasattr(shape, "other_data")` as evaluated in the grouping loop of
`export` (line 1023): `hasattr` tests Python object attributes, not
dictionary keys, and the shapes `export` receives are plain dicts
(`convert_directory_to_sharegpt.py`), so the test is constantly false. -/
def hasOtherDataAttr (_s : TShape) : Bool := false

/-- The `task_type` the grouping loop of `export` computes for one shape
(lines 1021-1024): it stays `None` unless the `hasattr` guard passes — which
it never does; the `shape.get` truthiness test and the `other_data` lookup
behind the guard are dead code. -/
def exportGroupTask (s : TShape) : Option (List Char) :=
  if hasOtherDataAttr s then s.other_vlm_task else none

/-- The grouping loop of `export` (lines 1020-1032): branch on the computed
`task_type`, with every shape whose task is neither Detection nor OCR
defaulted into the detection group.  Since the task is always `None`, every
shape lands there. -/
def groupShapesExport : List TShape → List TShape × List TShape
  | [] => ([], [])
  | s :: rest =>
    if exportGroupTask s = some "Detection".toList then
      (s :: (groupShapesExport rest).1, (groupShapesExport rest).2)
    else if exportGroupTask s = some "OCR".toList then
      ((groupShapesExport rest).1, s :: (groupShapesExport rest).2)
    else (s :: (groupShapesExport rest).1, (groupShapesExport rest).2)

theorem groupSingleFile_eq (shapes : List TShape) :
    groupShapesSingleFile shapes =
      (shapes.filter (fun s => decide (s.vlm_task = some "Detection".toList)),
       shapes.filter (fun s => decide (s.vlm_task = some "OCR".toList))) := by
  induction shapes with
  | nil => rfl
  | cons a rest ih =>
    rw [groupShapesSingleFile, ih]
    by_cases hD : a.vlm_task = some "Detection".toList
    · have hO : ¬ a.vlm_task = some "OCR".toList := by rw [hD]; decide
      rw [if_pos hD, List.filter_cons, List.filter_cons,
        if_pos (decide_eq_true hD), if_neg (fun h => hO (of_decide_eq_true h))]
    · rw [if_neg hD]
      by_cases hO : a.vlm_task = some "OCR".toList
      · rw [if_pos hO, List.filter_cons, List.filter_cons,
          if_neg (fun h => hD (of_decide_eq_true h)), if_pos (decide_eq_true hO)]
      · rw [if_neg hO, List.filter_cons, List.filter_cons,
          if_neg (fun h => hD (of_decide_eq_true h)),
          if_neg (fun h => hO (of_decide_eq_true h))]

/-- With the dead `hasattr` guard, the Detection/OCR tests compare `None`
against the task strings: every shape falls through to the default branch,
the detection group is the whole shape list and the OCR group is empty. -/
theorem groupExport_eq (shapes : List TShape) :
    groupShapesExport shapes = (shapes, []) := by
  induction shapes with
  | nil => rfl
  | cons a rest ih =>
    rw [groupShapesExport, ih,
      if_neg (by simp [exportGroupTask, hasOtherDataAttr]),
      if_neg (by simp [exportGroupTask, hasOtherDataAttr])]

theorem groupExport_total (shapes : List TShape) :
    (groupShapesExport shapes).1.length + (groupShapesExport shapes).2.length
      = shapes.length := by
  rw [groupExport_eq]
  simp

/-- One entry of the caption history as the exporters read it. -/
structure CaptionEntry where
  prompt : List Char
  description : List Char
deriving DecidableEq, Repr

/-- One emitted ShareGPT document: the task name and the conversation turns
(the constant `image` field is left out of the model). -/
structure TaskDoc where
  task : List Char
  conversations : List ConvTurn
deriving DecidableEq, Repr

/-- Caption objects of `export_single_file`: one Caption document per
history entry whose stripped prompt and description are both nonempty, the
stripped texts as the turn values. -/
def captionObjs : List CaptionEntry → List TaskDoc
  | [] => []
  | e :: rest =>
    if pstrip e.prompt ≠ [] ∧ pstrip e.description ≠ [] then
      ⟨"Caption".toList,
        [⟨"human".toList, pstrip e.prompt⟩,
         ⟨"gpt".toList, pstrip e.description⟩]⟩ :: captionObjs rest
    else captionObjs rest

/-- Human prompt of the detection object in `export_single_file`. -/
def detectionPromptSingle : List Char :=
  ("Outline all object with bounding box using this format: " ++
    "<p>label</p>[x1,y1,x2,y2], <p>label</p>[x1,y1,x2,y2]").toList

/-- Human prompt of the OCR object in `export_single_file`. -/
def ocrPromptSingle : List Char :=
  ("Read and Outline all words with bounding box using this format: " ++
    "<p>label</p>[x1,y1,x2,y2], <p>label</p>[x1,y1,x2,y2]").toList

/-- The `json_objects` list assembled by `export_single_file`: the caption
objects, then a Detection document when the strict detection group is
nonempty, then an OCR document likewise. `fmtJson` abstracts
`_format_shapes_as_json` applied at the fixed image size. -/
def singleFileObjs (fmtJson : List TShape → List Char)
    (captions : List CaptionEntry) (shapes : List TShape) : List TaskDoc :=
  captionObjs captions ++
    (if (groupShapesSingleFile shapes).1 ≠ [] then
      [⟨"Detection".toList,
        [⟨"human".toList, detectionPromptSingle⟩,
         ⟨"gpt".toList, fmtJson (groupShapesSingleFile shapes).1⟩]⟩]
     else []) ++
    (if (groupShapesSingleFile shapes).2 ≠ [] then
      [⟨"OCR".toList,
        [⟨"human".toList, ocrPromptSingle⟩,
         ⟨"gpt".toList, fmtJson (groupShapesSingleFile shapes).2⟩]⟩]
     else [])

/-- `ShareGPTExporter.export_single_file` after the object assembly: `none`
models returning False with nothing written (lines 790-793), `some objs`
models writing the objects newline-separated and returning True. -/
def exportSingleFile (fmtJson : List TShape → List Char)
    (captions : List CaptionEntry) (shapes : List TShape) :
    Option (List TaskDoc) :=
  if singleFileObjs fmtJson captions shapes = [] then none
  else some (singleFileObjs fmtJson captions shapes)

/-- Caption turns of `export`: one human/gpt pair per history entry whose
stripped prompt and description are both nonempty. -/
def captionTurns : List CaptionEntry → List ConvTurn
  | [] => []
  | e :: rest =>
    if pstrip e.prompt ≠ [] ∧ pstrip e.description ≠ [] then
      ⟨"human".toList, pstrip e.prompt⟩ ::
        ⟨"gpt".toList, pstrip e.description⟩ :: captionTurns rest
    else captionTurns rest

/-- The `task` field of the `export` document (lines 1078-1087): Caption,
unless some shape is tagged Detection (then Detection), else some shape is
tagged OCR (then OCR). -/
def exportTaskType (shapes : List TShape) : List Char :=
  if shapes ≠ [] then
    if 0 < shapes.countP
        (fun s => decide (s.other_vlm_task = some "Detection".toList)) then
      "Detection".toList
    else if 0 < shapes.countP
        (fun s => decide (s.other_vlm_task = some "OCR".toList)) then
      "OCR".toList
    else "Caption".toList
  else "Caption".toList

/-- The single ShareGPT document that `export` writes (lines 996-1104):
caption turns, then a detection conversation when the defaulting detection
group is nonempty, then an OCR conversation likewise; the document is
written and True returned whatever the conversations list is. `mkPrompt`
abstracts the f-string prompt built from the unique labels of a group
(Python set iteration order), `fmtJson` abstracts
`_format_shapes_as_json`. -/
def exportDoc (mkPrompt fmtJson : List TShape → List Char)
    (captions : List CaptionEntry) (shapes : List TShape) : TaskDoc :=
  ⟨exportTaskType shapes,
    captionTurns captions ++
      (if shapes ≠ [] then
        (if (groupShapesExport shapes).1 ≠ [] then
          [⟨"human".toList, mkPrompt (groupShapesExport shapes).1⟩,
           ⟨"gpt".toList, fmtJson (groupShapesExport shapes).1⟩]
         else []) ++
        (if (groupShapesExport shapes).2 ≠ [] then
          [⟨"human".toList, mkPrompt (groupShapesExport shapes).2⟩,
           ⟨"gpt".toList, fmtJson (groupShapesExport shapes).2⟩]
         else [])
       else [])⟩

/-- C8 counterexample: `ShareGPTExporter.export` defaults a shape with no
task tag into the detection group (lines 1030-1032), so the untagged shape
does reach a task-grouped output: with it as the only shape, `export` emits
a Detection conversation built from the group containing it. -/
theorem c8_untagged_default_counterexample :
    groupShapesExport [⟨"a".toList, none, none⟩] =
      ([⟨"a".toList, none, none⟩], []) ∧
    (exportDoc (fun _ => []) (fun g => (g.map TShape.label).foldr
        (fun x y => x ++ y) []) [] [⟨"a".toList, none, none⟩]).conversations =
      [⟨"human".toList, []⟩, ⟨"gpt".toList, "a".toList⟩] := by
  constructor
  · rfl
  · rfl

/-- C8 (amended): `export_single_file` groups strictly — a shape is in its
detection group iff its `vlm_task` is Detection, in its OCR group iff it is
OCR, and an untagged shape joins neither; in `export` the `hasattr` guard
never passes on the dict shapes it receives, so the computed task is always
`None` and every shape — untagged, or tagged Detection or OCR in its
`other_data` — is defaulted into the detection group, the OCR group staying
empty. -/
theorem c8_task_grouping_amended (shapes : List TShape) (s : TShape) :
    (s ∈ (groupShapesSingleFile shapes).1 ↔
       s ∈ shapes ∧ s.vlm_task = some "Detection".toList) ∧
    (s ∈ (groupShapesSingleFile shapes).2 ↔
       s ∈ shapes ∧ s.vlm_task = some "OCR".toList) ∧
    (s ∈ (groupShapesExport shapes).1 ↔ s ∈ shapes) ∧
    (groupShapesExport shapes).2 = [] := by
  rw [groupSingleFile_eq, groupExport_eq]
  simp [List.mem_filter]

theorem singleFileObjs_eq_nil_iff (fmtJson : List TShape → List Char)
    (captions : List CaptionEntry) (shapes : List TShape) :
    singleFileObjs fmtJson captions shapes = [] ↔
      captionObjs captions = [] ∧ (groupShapesSingleFile shapes).1 = [] ∧
      (groupShapesSingleFile shapes).2 = [] := by
  rw [singleFileObjs, List.append_eq_nil, List.append_eq_nil]
  constructor
  · rintro ⟨⟨hA, hB⟩, hC⟩
    refine ⟨hA, ?_, ?_⟩
    · by_contra hd
      rw [if_pos hd] at hB
      exact absurd hB (by simp)
    · by_contra ho
      rw [if_pos ho] at hC
      exact absurd hC (by simp)
  · rintro ⟨hA, hd, ho⟩
    exact ⟨⟨hA, by rw [if_neg (fun h => h hd)]⟩, by rw [if_neg (fun h => h ho)]⟩

/-- C9 counterexample: on an input with no caption history and no shapes —
zero producible conversation turns — `export` still writes a ShareGPT
document, with task Caption and an empty conversations list, and reports
success; only `export_single_file` fails on the same input. -/
theorem c9_empty_export_counterexample :
    exportDoc (fun _ => []) (fun _ => []) [] [] =
      ⟨"Caption".toList, []⟩ ∧
    exportSingleFile (fun _ => []) [] [] = none := by
  constructor
  · rfl
  · rfl

/-- C9 (amended): `export_single_file` fails and writes nothing exactly when
no caption pair and no task group is producible; `export` always writes its
document, whose conversations list is empty exactly when there is no
producible caption pair and no shape at all. -/
theorem c9_empty_export_amended (mkPrompt fmtJson : List TShape → List Char)
    (captions : List CaptionEntry) (shapes : List TShape) :
    (exportSingleFile fmtJson captions shapes = none ↔
       captionObjs captions = [] ∧ (groupShapesSingleFile shapes).1 = [] ∧
       (groupShapesSingleFile shapes).2 = []) ∧
    ((exportDoc mkPrompt fmtJson captions shapes).conversations = [] ↔
       captionTurns captions = [] ∧ shapes = []) := by
  constructor
  · constructor
    · intro hn
      by_cases h : singleFileObjs fmtJson captions shapes = []
      · exact (singleFileObjs_eq_nil_iff fmtJson captions shapes).mp h
      · rw [exportSingleFile, if_neg h] at hn
        exact absurd hn (by simp)
    · intro hcond
      rw [exportSingleFile,
        if_pos ((singleFileObjs_eq_nil_iff fmtJson captions shapes).mpr hcond)]
  · dsimp only [exportDoc]
    rw [List.append_eq_nil]
    constructor
    · rintro ⟨hc, ht⟩
      refine ⟨hc, ?_⟩
      by_contra hs
      rw [if_pos hs] at ht
      rcases List.append_eq_nil.mp ht with ⟨h1, h2⟩
      have hd : (groupShapesExport shapes).1 = [] := by
        by_contra hd
        rw [if_pos hd] at h1
        exact absurd h1 (by simp)
      have ho : (groupShapesExport shapes).2 = [] := by
        by_contra ho
        rw [if_pos ho] at h2
        exact absurd h2 (by simp)
      have htot := groupExport_total shapes
      rw [hd, ho] at htot
      simp only [List.length_nil] at htot
      exact hs (List.length_eq_zero.mp htot.symm)
    · rintro ⟨hc, rfl⟩
      exact ⟨hc, by rw [if_neg (fun h => h rfl)]⟩

/-! ### The two embedded-tag parsers side by side (C10) -/

theorem loaderCoordOk_of_vlm {c : Char} (h : vlmCoordOk c = true) :
    loaderCoordOk c = true := by
  by_cases hc : c = ']'
  · subst hc
    exact absurd h (by decide)
  · simp [loaderCoordOk, hc]

/-- A loader-pattern match whose coordinate run stays inside the VLM
character class is also a VLM-pattern match, with the same groups and the
same remaining input. -/
theorem matchTag_loader_to_vlm {cs lab run r5 : List Char}
    (h : matchTag loaderCoordOk cs = some ((lab, run), r5))
    (hclean : ∀ c ∈ run, vlmCoordOk c = true) :
    matchTag vlmCoordOk cs = some ((lab, run), r5) := by
  obtain ⟨hcs, hlab, hlabok, hrun, _⟩ := matchTag_some_decomp h
  rw [hcs]
  exact matchTag_tagChunkR vlmCoordOk lab run r5 hlab hlabok hrun hclean
    (by decide)

/-- Every VLM-pattern match is a loader-pattern match: `[0-9.,]` is
contained in `[^\]]`. -/
theorem matchTag_vlm_to_loader {cs lab run r5 : List Char}
    (h : matchTag vlmCoordOk cs = some ((lab, run), r5)) :
    matchTag loaderCoordOk cs = some ((lab, run), r5) := by
  obtain ⟨hcs, hlab, hlabok, hrun, hrunok⟩ := matchTag_some_decomp h
  rw [hcs]
  exact matchTag_tagChunkR loaderCoordOk lab run r5 hlab hlabok hrun
    (fun c hc => loaderCoordOk_of_vlm (hrunok c hc)) (by decide)

theorem findTags_vlm_eq_loader_fuel : ∀ (n : ℕ) (t : List Char),
    t.length ≤ n →
    (∀ pr ∈ findTags loaderCoordOk t, ∀ c ∈ pr.2, vlmCoordOk c = true) →
    findTags vlmCoordOk t = findTags loaderCoordOk t := by
  intro n
  induction n with
  | zero =>
    intro t ht _
    have h0 : t = [] := List.length_eq_zero.mp (Nat.le_zero.mp ht)
    subst h0
    rfl
  | succ n ih =>
    intro t ht hclean
    cases t with
    | nil => rfl
    | cons c rest =>
      cases hm : matchTag loaderCoordOk (c :: rest) with
      | some x =>
        obtain ⟨⟨lab, run⟩, r5⟩ := x
        have hscan := findTags_cons_some hm
        have hcln : ∀ ch ∈ run, vlmCoordOk ch = true := by
          have hpair : ((lab, run) : List Char × List Char)
              ∈ findTags loaderCoordOk (c :: rest) := by
            rw [hscan]
            exact List.mem_cons_self _ _
          exact hclean _ hpair
        have hv := matchTag_loader_to_vlm hm hcln
        rw [findTags_cons_some hv, hscan]
        have hlen := matchTag_length hm
        have hrec : findTags vlmCoordOk r5 = findTags loaderCoordOk r5 := by
          apply ih r5
            (by simp only [List.length_cons] at hlen ht ⊢; omega)
          intro pr hpr
          exact hclean pr (by rw [hscan]; exact List.mem_cons_of_mem _ hpr)
        rw [hrec]
      | none =>
        have hv : matchTag vlmCoordOk (c :: rest) = none := by
          cases hv2 : matchTag vlmCoordOk (c :: rest) with
          | none => rfl
          | some x =>
            obtain ⟨⟨lab, run⟩, r5⟩ := x
            have h2 := matchTag_vlm_to_loader hv2
            rw [hm] at h2
            exact Option.noConfusion h2
        rw [findTags_cons_none hm, findTags_cons_none hv]
        apply ih rest (by simp only [List.length_cons] at ht; omega)
        intro pr hpr
        exact hclean pr (by rw [findTags_cons_none hm]; exact hpr)

/-- When every coordinate run the loader pattern matches stays inside
`[0-9.,]`, the two scans find exactly the same matches. -/
theorem findTags_vlm_eq_loader (t : List Char)
    (hclean : ∀ pr ∈ findTags loaderCoordOk t,
      ∀ c ∈ pr.2, vlmCoordOk c = true) :
    findTags vlmCoordOk t = findTags loaderCoordOk t :=
  findTags_vlm_eq_loader_fuel t.length t le_rfl hclean

/-- The (label, coordinates) pairs of the bbox records extracted by
`_parse_gpt_annotations` — its four-coordinate detections. -/
def loaderBoxes (t : List Char) : List (List Char × List ℚ) :=
  (parseGptAnnotations t).filterMap fun r =>
    if r.annotation_type = AnnType.bbox then some (r.label, r.coordinates)
    else none

/-- The (label, bbox) pairs of the detections extracted by
`parse_conversation_format_response`. -/
def vlmBoxes (t : List Char) : List (List Char × List ℚ) :=
  (parseConversationFormatResponse t).1.map fun d => (d.label, d.bbox)

theorem filterMap_ext_mem {α β : Type} {f g : α → Option β} :
    ∀ (l : List α), (∀ a ∈ l, f a = g a) → l.filterMap f = l.filterMap g := by
  intro l
  induction l with
  | nil => intro _; rfl
  | cons a as ih =>
    intro h
    rw [List.filterMap_cons, List.filterMap_cons, h a (by simp),
      ih (fun x hx => h x (by simp [hx]))]

/-- On one regex match, projecting the loader record to its bbox content
agrees with the VLM record: both parsers split, strip and float-parse the
run the same way, and both keep exactly the four-coordinate case. -/
theorem tag_bbox_agree (pr : List Char × List Char) :
    (processTag pr).bind (fun r =>
        if r.annotation_type = AnnType.bbox then some (r.label, r.coordinates)
        else none) =
      (processVlmTag pr).map fun d => (d.label, d.bbox) := by
  unfold processTag processVlmTag
  cases hp : parseFloats ((splitSep ',' pr.2).map pstrip) with
  | none => rfl
  | some coords =>
    simp only [Option.some_bind]
    by_cases h4 : coords.length = 4
    · rw [if_neg (show ¬ coords.length = 2 by omega), if_pos h4, if_pos h4]
      rfl
    · rw [if_neg h4, if_neg h4]
      by_cases h2 : coords.length = 2
      · rw [if_pos h2]
        rfl
      · rw [if_neg h2]
        by_cases h6 : 6 ≤ coords.length ∧ coords.length % 2 = 0
        · rw [if_pos h6]
          rfl
        · rw [if_neg h6]
          rfl

/-- C10 counterexample: on `<p>a</p>[-1,2,3,4]` the parsers diverge.  The
loader class `[^\]]` accepts the minus sign, `float` parses it, and one bbox
record results; the VLM class `[0-9.,]` rejects the minus sign, the pattern
does not match, and no detection results. -/
theorem c10_parser_divergence_counterexample :
    (loaderBoxes "<p>a</p>[-1,2,3,4]".toList).length = 1 ∧
    (vlmBoxes "<p>a</p>[-1,2,3,4]".toList).length = 0 := by
  constructor
  · decide
  · decide

/-- C10 (amended): on every text in which each coordinate run matched by the
loader pattern uses only characters of the VLM class `[0-9.,]`, the two
parsers extract exactly the same (label, coordinates) box detections, in the
same order. -/
theorem c10_parsers_agree_amended (t : List Char)
    (hclean : ∀ pr ∈ findTags loaderCoordOk t,
      ∀ c ∈ pr.2, vlmCoordOk c = true) :
    loaderBoxes t = vlmBoxes t := by
  unfold loaderBoxes vlmBoxes parseGptAnnotations parseConversationFormatResponse
  rw [findTags_vlm_eq_loader t hclean, List.filterMap_filterMap,
    List.map_filterMap]
  exact filterMap_ext_mem _ (fun pr _ => tag_bbox_agree pr)

/-- C10 witness: a concrete clean text on which the amended agreement
applies. -/
theorem c10_parsers_agree_amended_witness :
    (∀ pr ∈ findTags loaderCoordOk "<p>a</p>[1,2,3,4]".toList,
      ∀ c ∈ pr.2, vlmCoordOk c = true) ∧
    loaderBoxes "<p>a</p>[1,2,3,4]".toList =
      vlmBoxes "<p>a</p>[1,2,3,4]".toList :=
  ⟨by decide, c10_parsers_agree_amended "<p>a</p>[1,2,3,4]".toList (by decide)⟩

end AutoLabel

